import Mathlib

/-!
Shallow embedding of the rendering core of `battlescrape.py`.

Conventions of the embedding:
* Python strings are modeled as `List Char` where character-level indexing
  matters (snake names, ids, shouts) and as Lean `String` where only
  concatenation matters (the assembled board output).
* Python integers are `Int` (coordinates, health) or `Nat` (board sizes,
  list lengths); there is no overflow.
* Python `list[i]` indexing accepts negative indices: `i` is valid iff
  `-len ≤ i < len`, and a negative `i` addresses `len + i`.  `pyIdx` models
  this; an invalid index (Python `IndexError`) is modeled as `none` /
  `PyErr.indexError`.
* `str.upper()` / `str.lower()` / `chr` are modeled on code points
  (`pyUpper`, `pyLower`, `pyChr`); this is exact for ASCII, which is the
  range exercised by the program's own literals.  Multi-code-point case
  mappings of exotic characters are not modeled.
* The float midpoint `(prev + next) / 2` in `get_body_char` is modeled with
  exact rationals; IEEE doubles agree with the exact value whenever the sum
  fits in 53 bits, which covers every representable board.
-/

namespace Battlescrape

/-- A board position, from the JSON objects `{"X": ..., "Y": ...}`. -/
structure Pos where
  x : Int
  y : Int
deriving DecidableEq, Repr

/-- A live-or-dead snake record, with the fields of the frame JSON that the
renderer reads.  `shout` is `[]` both for a missing shout and an empty one
(Python truthiness collapses the two); `dead` is `true` iff the JSON field
`Death` is not `None`. -/
structure Snake where
  id : List Char
  name : List Char
  health : Int
  body : List Pos
  shout : List Char
  dead : Bool
deriving DecidableEq, Repr, Inhabited

/-- `{ID, Width, Height}` of the game record. -/
structure Game where
  width : Nat
  height : Nat
deriving DecidableEq, Repr

/-- The fields of a frame record that the renderer reads. -/
structure Frame where
  food : List Pos
  snakes : List Snake
deriving DecidableEq, Repr

/-- The Python exceptions the rendering core can raise: `IndexError` from
list/string indexing, `ValueError` from `chr` past `0x10FFFF`. -/
inductive PyErr
  | indexError
  | valueError
deriving DecidableEq, Repr

/-- The `--format` command line option. -/
inductive FormatOption
  | none
  | java
  | python
deriving DecidableEq, Repr

/-- Python `str.upper()` on one character: ASCII lowercase maps to
uppercase, everything else is unchanged. -/
def pyUpper (c : Char) : Char :=
  if 97 ≤ c.toNat ∧ c.toNat ≤ 122 then Char.ofNat (c.toNat - 32) else c

/-- Python `str.lower()` on one character: ASCII uppercase maps to
lowercase, everything else is unchanged. -/
def pyLower (c : Char) : Char :=
  if 65 ≤ c.toNat ∧ c.toNat ≤ 90 then Char.ofNat (c.toNat + 32) else c

/-- Python `chr`. -/
def pyChr (n : Nat) : Char := Char.ofNat n

/-! ## Snake Label Assigner (`validate_snake_names`, `set_snake_chars`) -/

/-- `validate_snake_names`: every snake whose name is falsy (empty) gets the
name `"UNKNOWN"`. -/
def validate_snake_names (snakes : List Snake) : List Snake :=
  snakes.map (fun s => if s.name = [] then { s with name := "UNKNOWN".data } else s)

/-- The inner alphabet loop of `set_snake_chars`: try `chr 97`, `chr 98`,
... until an unused character is found.  Python raises `ValueError` once
`chr` is called past `0x10FFFF`, hence the fuel `0x110000 - 97 = 1114015`
in `alphaScan`. -/
def alphaScanAux (used : List Char) : Nat → Nat → Option Char
  | 0, _ => Option.none
  | fuel + 1, k =>
    let c := pyChr k
    if c ∈ used then alphaScanAux used fuel (k + 1) else some c

/-- The alphabet fallback scan of the conflict pass. -/
def alphaScan (used : List Char) : Option Char :=
  alphaScanAux used 1114015 97

/-- The name scan of the conflict pass: walk the name left to right and
return the first upper-cased character that is not yet used. -/
def scanName (used : List Char) : List Char → Option Char
  | [] => Option.none
  | c :: rest =>
    let u := pyUpper c
    if u ∈ used then scanName used rest else some u

/-- One conflict-pass assignment (the `while char in used_chars` loop of
`set_snake_chars`): first unused upper-cased character of the name, else
the alphabet scan. -/
def find_char (used : List Char) (name : List Char) : Option Char :=
  match scanName used name with
  | some c => some c
  | Option.none => alphaScan used

/-- Pass 1 of `set_snake_chars`: first-come first-served on upper-cased
first letters.  Returns the per-snake assignment (`none` marks a snake
deferred to the conflict pass, in order) together with the final used list.
Reading `name[0]` of an empty name raises `IndexError`. -/
def pass1 (used : List Char) : List (List Char) → Except PyErr (List (Option Char) × List Char)
  | [] => .ok ([], used)
  | name :: rest =>
    match name with
    | [] => .error .indexError
    | c0 :: _ =>
      let ch := pyUpper c0
      if ch ∈ used then
        match pass1 used rest with
        | .error e => .error e
        | .ok (os, u) => .ok (Option.none :: os, u)
      else
        match pass1 (used ++ [ch]) rest with
        | .error e => .error e
        | .ok (os, u) => .ok (some ch :: os, u)

/-- Pass 2 of `set_snake_chars`: resolve the deferred snakes in order.
The deferred snakes are exactly the `none` marks of pass 1, in the original
list order, which is the order Python appends them to `conflict_snakes`.
The mismatched-length cases are unreachable from `set_snake_chars`. -/
def pass2 (used : List Char) : List (List Char) → List (Option Char) → Except PyErr (List Char)
  | [], [] => .ok []
  | _name :: names, some c :: opts =>
    match pass2 used names opts with
    | .error e => .error e
    | .ok cs => .ok (c :: cs)
  | name :: names, Option.none :: opts =>
    match name with
    | [] => .error .indexError
    | _ :: _ =>
      match find_char used name with
      | some c =>
        match pass2 (used ++ [c]) names opts with
        | .error e => .error e
        | .ok cs => .ok (c :: cs)
      | Option.none => .error .valueError
  | _ :: _, [] => .error .indexError
  | [], _ :: _ => .error .indexError

/-- `set_snake_chars`: assign each snake a unique label character.  The
result is the per-snake label list, aligned with the input order (Python
stores the label in the mutable field `snake["Char"]`). -/
def set_snake_chars (snakes : List Snake) : Except PyErr (List Char) :=
  match pass1 [] (snakes.map Snake.name) with
  | .error e => .error e
  | .ok (opts, used) => pass2 used (snakes.map Snake.name) opts

/-! ## Body Segment Renderer (`get_body_char` and the glyph branch of
`get_board_string`'s snake loop) -/

/-- `get_body_char`: the two-character glyph of an interior body segment.
The program only calls it with `1 ≤ index ≤ body.length - 2`, so the `getD`
defaults are never read.  The float midpoint of the source is modeled with
exact rationals. -/
def get_body_char (body : List Pos) (index : Nat) : String :=
  let prev := body.getD (index - 1) ⟨0, 0⟩
  let target := body.getD index ⟨0, 0⟩
  let next := body.getD (index + 1) ⟨0, 0⟩
  if prev.x = next.x then
    "║ "
  else if prev.y = next.y then
    "══"
  else
    let prev_next_x : ℚ := ((prev.x : ℚ) + (next.x : ℚ)) / 2
    let prev_next_y : ℚ := ((prev.y : ℚ) + (next.y : ℚ)) / 2
    if (target.x : ℚ) < prev_next_x ∧ (target.y : ℚ) < prev_next_y then
      "╚═"
    else if (target.x : ℚ) < prev_next_x then
      "╔═"
    else if (target.y : ℚ) > prev_next_y then
      "╗ "
    else
      "╝ "

/-- The glyph the snake loop of `get_board_string` writes for body index
`index` of a snake labeled `ch`: head at index 0, tail at the last index,
`get_body_char` in between. -/
def segment_glyph (ch : Char) (body : List Pos) (index : Nat) : String :=
  let length := body.length
  let bp := body.getD index ⟨0, 0⟩
  if index = 0 then
    let head_char := pyUpper ch
    if 2 < length ∧ (body.getD (index + 1) ⟨0, 0⟩).x = bp.x + 1 then
      String.singleton head_char ++ "═"
    else
      String.singleton head_char ++ " "
  else if index = length - 1 then
    let tail_char := pyLower ch
    if 2 < length ∧ (body.getD (index - 1) ⟨0, 0⟩).x = bp.x + 1 then
      String.singleton tail_char ++ "═"
    else
      String.singleton tail_char ++ " "
  else
    get_body_char body index

/-! ## Board Layout Builder (the `board_bucket` phase of
`get_board_string`) -/

/-- Python list indexing: index `i` into a list of length `n` succeeds iff
`-n ≤ i < n`; a negative `i` addresses `n + i`. -/
def pyIdx (n : Nat) (i : Int) : Option Nat :=
  if 0 ≤ i ∧ i < (n : Int) then some i.toNat
  else if -(n : Int) ≤ i ∧ i < 0 then some ((n : Int) + i).toNat
  else Option.none

/-- `board_bucket[p.y][p.x] = g`, with Python indexing; `none` is the
`IndexError` case. -/
def setCell (b : List (List String)) (p : Pos) (g : String) : Option (List (List String)) :=
  match pyIdx b.length p.y with
  | Option.none => Option.none
  | some r =>
    let row := b.getD r []
    match pyIdx row.length p.x with
    | Option.none => Option.none
    | some c => some (b.set r (row.set c g))

/-- Cell lookup used only in specifications (row, column are already
normalized). -/
def getCell (b : List (List String)) (r c : Nat) : Option String :=
  b[r]?.bind (fun row => row[c]?)

/-- `[[". "] * width for _ in range(height)]`. -/
def init_bucket (width height : Nat) : List (List String) :=
  List.replicate height (List.replicate width ". ")

/-- Run a sequence of cell writes left to right, stopping at the first
`IndexError`. -/
def apply_writes (b : List (List String)) : List (Pos × String) → Option (List (List String))
  | [] => some b
  | w :: ws =>
    match setCell b w.1 w.2 with
    | Option.none => Option.none
    | some b' => apply_writes b' ws

/-- The writes of one snake: one glyph per body index, in body order. -/
def snake_writes (ch : Char) (body : List Pos) : List (Pos × String) :=
  body.enum.map (fun ip => (ip.2, segment_glyph ch body ip.1))

/-- All cell writes of `get_board_string`, in program order: food first
(glyph `"% "`), then every snake's segments, in snake list order. -/
def all_writes (foods : List Pos) (labeled : List (Snake × Char)) : List (Pos × String) :=
  foods.map (fun f => (f, "% "))
    ++ (labeled.map (fun sc => snake_writes sc.2 sc.1.body)).flatten

/-! ## Board String Formatter (the layout phase of `get_board_string`) -/

/-- Decimal digits of a natural number, as Python `str` renders it.  The
fuel argument makes the recursion structural; `nat_repr` supplies enough
fuel for the recursion never to run out. -/
def nat_repr_aux : Nat → Nat → List Char
  | 0, _ => []
  | fuel + 1, n =>
    if n < 10 then [pyChr (48 + n)]
    else nat_repr_aux fuel (n / 10) ++ [pyChr (48 + n % 10)]

/-- Python `str` of a non-negative integer. -/
def nat_repr (n : Nat) : List Char := nat_repr_aux (n + 1) n

/-- Python `str` of an integer. -/
def int_repr (i : Int) : List Char :=
  if i < 0 then '-' :: nat_repr (-i).toNat else nat_repr i.toNat

/-- Python `id[-6:]`: the last six characters (the whole string when it is
shorter). -/
def last6 (id : List Char) : List Char := id.drop (id.length - 6)

/-- The `display_name` computation of the info line: the name alone when
every snake with the same name has the same id, otherwise
`name + "/" + id[-6:]`. -/
def display_name (snakes : List Snake) (s : Snake) : List Char :=
  if snakes.all (fun o => o.name ≠ s.name ∨ o.id = s.id) then s.name
  else s.name ++ '/' :: last6 s.id

/-- The shout fragment of the info line: `"\"{shout}\""` when the snake
shouted, empty otherwise. -/
def shout_part (s : Snake) : List Char :=
  if s.shout = [] then [] else '"' :: s.shout ++ ['"']

/-- The info line of one labeled snake:
`" {CHAR}: {display_name} ({health}) <{len(body)}> {shout}"`. -/
def snake_info_line (snakes : List Snake) (s : Snake) (ch : Char) : String :=
  " " ++ String.singleton (pyUpper ch) ++ ": " ++ String.mk (display_name snakes s)
    ++ " (" ++ String.mk (int_repr s.health) ++ ") <"
    ++ String.mk (nat_repr s.body.length) ++ "> " ++ String.mk (shout_part s)

/-- The annotation appended to the glyph row at index `row` from the top:
`" Turn {turn}"` at row 0, the info line of snake `row - 2` at rows
`2 ≤ row < 2 + N`, nothing otherwise. -/
def row_note (turn : String) (labeled : List (Snake × Char)) (row : Nat) : String :=
  if row = 0 then " Turn " ++ turn
  else if 2 ≤ row ∧ row < 2 + labeled.length then
    match labeled.get? (row - 2) with
    | some sc => snake_info_line (labeled.map Prod.fst) sc.1 sc.2
    | Option.none => ""
  else ""

/-- Concatenation of a list of strings, in order (repeated `concat` with
empty line end in the source). -/
def strJoin : List String → String
  | [] => ""
  | s :: rest => s ++ strJoin rest

/-- The glyphs of the output row at index `row` from the top:
`board_bucket[height - row - 1][col]` for `col = 0 .. width - 1`.  The
`getD` defaults are never read on a well-shaped bucket. -/
def row_glyphs (bucket : List (List String)) (height width row : Nat) : String :=
  strJoin ((List.range width).map (fun col => (bucket.getD (height - row - 1) []).getD col ""))

/-- One output line of the board proper: comment edge, glyphs, annotation,
newline. -/
def row_line (edge : String) (bucket : List (List String)) (height width : Nat)
    (turn : String) (labeled : List (Snake × Char)) (row : Nat) : String :=
  edge ++ row_glyphs bucket height width row ++ row_note turn labeled row ++ "\n"

/-- `(comment_frame_start, comment_frame_edge, comment_frame_end)` per
format option. -/
def format_parts : FormatOption → String × String × String
  | FormatOption.none => ("", "", "")
  | FormatOption.java => ("\n/**", " * ", " */\n")
  | FormatOption.python => ("\n\"\"\"", "", "\"\"\"\n")

/-- The share-URL header line content. -/
def board_url (game_id turn : String) : String :=
  "https://board.battlesnake.com/?engine=https%3A//engine.battlesnake.com&game="
    ++ game_id ++ "&turn=" ++ turn

/-- The snakes the renderer works with: the frame snakes whose `Death` is
`None`, names normalized. -/
def live_snakes (frame : Frame) : List Snake :=
  validate_snake_names (frame.snakes.filter (fun s => !s.dead))

/-- `get_board_string`, with the two network fetches replaced by the `game`
and `frame` arguments and the module-global `args.format_option` by `fmt`.
Each `concat(s, a, end)` of the source is the append `s ++ a ++ end`; the
whole output is the corresponding concatenation. -/
def get_board_string (game_id turn : String) (game : Game) (frame : Frame)
    (fmt : FormatOption) : Except PyErr String :=
  let width := game.width
  let height := game.height
  let foods := frame.food
  let snakes := live_snakes frame
  match set_snake_chars snakes with
  | .error e => .error e
  | .ok chars =>
    let labeled := snakes.zip chars
    match apply_writes (init_bucket width height) (all_writes foods labeled) with
    | Option.none => .error .indexError
    | some bucket =>
      let parts := format_parts fmt
      .ok (parts.1 ++ "\n"
        ++ parts.2.1 ++ board_url game_id turn ++ "\n"
        ++ strJoin ((List.range height).map (row_line parts.2.1 bucket height width turn labeled))
        ++ parts.2.2)

/-! ## Auxiliary predicates and spec-side definitions

The `*_spec` definitions below follow the wording of the specification
claims (not the source); the claim theorems relate them to the embedded
source functions. -/

/-- A position inside the declared board, in the spec's sense:
`0 ≤ x < width` and `0 ≤ y < height`. -/
def inBounds (width height : Nat) (p : Pos) : Prop :=
  0 ≤ p.x ∧ p.x < (width : Int) ∧ 0 ≤ p.y ∧ p.y < (height : Int)

/-- A position Python list indexing accepts: `-width ≤ x < width` and
`-height ≤ y < height`. -/
def pyInBounds (width height : Nat) (p : Pos) : Prop :=
  -(width : Int) ≤ p.x ∧ p.x < (width : Int) ∧ -(height : Int) ≤ p.y ∧ p.y < (height : Int)

instance (width height : Nat) (p : Pos) : Decidable (inBounds width height p) := by
  unfold inBounds; infer_instance

instance (width height : Nat) (p : Pos) : Decidable (pyInBounds width height p) := by
  unfold pyInBounds; infer_instance

/-- A bucket with `height` rows of `width` cells each. -/
def Shaped (b : List (List String)) (height width : Nat) : Prop :=
  b.length = height ∧ ∀ row ∈ b, row.length = width

/-- The glyphs written at exactly the position `p`, in write order. -/
def writes_at (p : Pos) (ws : List (Pos × String)) : List String :=
  (ws.filter (fun pg => pg.1 == p)).map Prod.snd

/-- The last element of a list, if any. -/
def last? : List α → Option α
  | [] => Option.none
  | [a] => some a
  | _ :: b :: rest => last? (b :: rest)

/-- Number of newline characters in a string. -/
def nl_count (s : String) : Nat := s.data.count '\n'

/-- A well-formed board cell: exactly two characters, no newline. -/
def CellOk (cell : String) : Prop :=
  cell.data.length = 2 ∧ '\n' ∉ cell.data

/-- Every cell of the bucket is well-formed. -/
def CellsOk (b : List (List String)) : Prop :=
  ∀ row ∈ b, ∀ cell ∈ row, CellOk cell

/-- C6, spec side: the head glyph as the claim words it — the snake's
uppercase label, extended right with a horizontal connector exactly when
the body has more than two segments and the next segment sits one cell to
the right; otherwise the label followed by a trailing space. -/
def head_glyph_spec (label : Char) (body : List Pos) : String :=
  if 2 < body.length ∧ (body.getD 1 ⟨0, 0⟩).x = (body.getD 0 ⟨0, 0⟩).x + 1 then
    String.singleton (pyUpper label) ++ "═"
  else
    String.singleton (pyUpper label) ++ " "

/-- C6, spec side: the tail glyph — the lowercase label with the same
right-extension rule applied against the previous segment. -/
def tail_glyph_spec (label : Char) (body : List Pos) : String :=
  if 2 < body.length ∧
      (body.getD (body.length - 2) ⟨0, 0⟩).x = (body.getD (body.length - 1) ⟨0, 0⟩).x + 1 then
    String.singleton (pyLower label) ++ "═"
  else
    String.singleton (pyLower label) ++ " "

/-- C7, spec side: the interior glyph as the claim words it — vertical
when the neighbours share `x`, horizontal when they share `y`, otherwise a
corner picked by comparing the segment to the per-axis midpoint of its
neighbours (less-than on both axes, less-than on `x` only, greater-than on
`y` only, else). -/
def interior_glyph_spec (prev target next : Pos) : String :=
  if prev.x = next.x then "║ "
  else if prev.y = next.y then "══"
  else
    let mx : ℚ := ((prev.x : ℚ) + (next.x : ℚ)) / 2
    let my : ℚ := ((prev.y : ℚ) + (next.y : ℚ)) / 2
    if (target.x : ℚ) < mx ∧ (target.y : ℚ) < my then "╚═"
    else if (target.x : ℚ) < mx then "╔═"
    else if (target.y : ℚ) > my then "╗ "
    else "╝ "

/-- C5, spec side: snake `i`'s name is shared when some other live snake
(at a different index) has the same display name. -/
def name_shared (snakes : List Snake) (i : Nat) (s : Snake) : Bool :=
  (List.range snakes.length).any
    (fun j => j != i && (snakes.getD j default).name == s.name)

/-- C5, spec side: the display name as the claim words it — the suffix
`"/" + id[-6:]` is appended exactly when another live snake shares the
same display name. -/
def display_name_spec (snakes : List Snake) (i : Nat) (s : Snake) : List Char :=
  if name_shared snakes i s then s.name ++ '/' :: last6 s.id else s.name

/-! ## Concrete inputs used by witnesses and counterexamples -/

/-- A one-segment snake with the given id and name. -/
def demoSnake (id name : String) : Snake :=
  { id := id.data, name := name.data, health := 100, body := [⟨0, 0⟩],
    shout := [], dead := false }

/-- Two live snakes both named `"Bob"`. -/
def bobSnakes : List Snake := [demoSnake "id-1" "Bob", demoSnake "id-2" "Bob"]

/-- Two live snakes both named `"Aa"`. -/
def aaSnakes : List Snake := [demoSnake "id-1" "Aa", demoSnake "id-2" "Aa"]

/-- Two labeled live snakes both named `"Alice"`, with distinct ids. -/
def aliceSnakes : List (Snake × Char) :=
  [({ id := "alpha-12345".data, name := "Alice".data, health := 90,
      body := [⟨0, 0⟩, ⟨0, 1⟩], shout := [], dead := false }, 'A'),
   ({ id := "beta-678901".data, name := "Alice".data, health := 80,
      body := [⟨1, 0⟩], shout := "hey".data, dead := false }, 'L')]

end Battlescrape

namespace Battlescrape

/-! ## Lemmas about the Snake Label Assigner -/

theorem alphaScanAux_not_mem (used : List Char) :
    ∀ fuel k c, alphaScanAux used fuel k = some c → c ∉ used := by
  intro fuel
  induction fuel with
  | zero => intro k c h; simp [alphaScanAux] at h
  | succ n ih =>
    intro k c h
    simp only [alphaScanAux] at h
    by_cases hm : pyChr k ∈ used
    · rw [if_pos hm] at h
      exact ih (k + 1) c h
    · rw [if_neg hm] at h
      cases h
      exact hm

theorem alphaScan_not_mem (used : List Char) (c : Char)
    (h : alphaScan used = some c) : c ∉ used :=
  alphaScanAux_not_mem used 1114015 97 c h

theorem scanName_not_mem (used : List Char) :
    ∀ name c, scanName used name = some c → c ∉ used := by
  intro name
  induction name with
  | nil => intro c h; simp [scanName] at h
  | cons a rest ih =>
    intro c h
    simp only [scanName] at h
    by_cases hm : pyUpper a ∈ used
    · rw [if_pos hm] at h
      exact ih c h
    · rw [if_neg hm] at h
      cases h
      exact hm

theorem find_char_not_mem (used name : List Char) (c : Char)
    (h : find_char used name = some c) : c ∉ used := by
  unfold find_char at h
  cases hs : scanName used name with
  | none => rw [hs] at h; exact alphaScan_not_mem used c h
  | some d => rw [hs] at h; cases h; exact scanName_not_mem used name c hs

/-- Pass 1 appends exactly the assigned characters, in order, to the used
list, and preserves duplicate-freedom. -/
theorem pass1_spec (names : List (List Char)) :
    ∀ used opts u, pass1 used names = .ok (opts, u) →
      opts.length = names.length ∧ u = used ++ opts.filterMap id ∧
        (used.Nodup → u.Nodup) := by
  induction names with
  | nil =>
    intro used opts u h
    simp only [pass1] at h
    cases h
    simp
  | cons name rest ih =>
    intro used opts u h
    simp only [pass1] at h
    match hname : name with
    | [] => simp at h
    | c0 :: cs =>
      simp only at h
      by_cases hm : pyUpper c0 ∈ used
      · rw [if_pos hm] at h
        cases hrec : pass1 used rest with
        | error e => rw [hrec] at h; simp at h
        | ok p =>
          obtain ⟨os, u2⟩ := p
          rw [hrec] at h
          simp only [Except.ok.injEq, Prod.mk.injEq] at h
          obtain ⟨ho, hu2⟩ := h
          subst ho
          subst hu2
          obtain ⟨hlen, hu, hnd⟩ := ih _ _ _ hrec
          refine ⟨by simp [hlen], ?_, hnd⟩
          simpa using hu
      · rw [if_neg hm] at h
        cases hrec : pass1 (used ++ [pyUpper c0]) rest with
        | error e => rw [hrec] at h; simp at h
        | ok p =>
          obtain ⟨os, u2⟩ := p
          rw [hrec] at h
          simp only [Except.ok.injEq, Prod.mk.injEq] at h
          obtain ⟨ho, hu2⟩ := h
          subst ho
          subst hu2
          obtain ⟨hlen, hu, hnd⟩ := ih _ _ _ hrec
          refine ⟨by simp [hlen], ?_, ?_⟩
          · simp only [List.filterMap_cons]
            simp only [id] at hu ⊢
            rw [hu, List.append_assoc]
            simp
          · intro hused
            apply hnd
            simp [List.nodup_append, hused, hm]

/-- Pass 2 produces one label per snake. -/
theorem pass2_length (names : List (List Char)) :
    ∀ opts used cs, pass2 used names opts = .ok cs → cs.length = names.length := by
  induction names with
  | nil =>
    intro opts used cs h
    match opts with
    | [] => simp only [pass2] at h; cases h; rfl
    | _ :: _ => simp [pass2] at h
  | cons name rest ih =>
    intro opts used cs h
    match opts with
    | [] => simp [pass2] at h
    | some c :: os =>
      simp only [pass2] at h
      cases hrec : pass2 used rest os with
      | error e => rw [hrec] at h; simp at h
      | ok cs' =>
        rw [hrec] at h
        cases h
        simp [ih os used cs' hrec]
    | Option.none :: os =>
      simp only [pass2] at h
      match name with
      | [] => simp at h
      | a :: as =>
        simp only at h
        cases hfc : find_char used (a :: as) with
        | none => rw [hfc] at h; simp at h
        | some c =>
          rw [hfc] at h
          dsimp only at h
          cases hrec : pass2 (used ++ [c]) rest os with
          | error e => rw [hrec] at h; simp at h
          | ok cs' =>
            rw [hrec] at h
            simp only [Except.ok.injEq] at h
            subst h
            simp [ih os (used ++ [c]) cs' hrec]

/-- Pass 2 keeps the labels pairwise distinct: it only hands out a
character that is not yet used, and the pre-assigned characters are
pairwise distinct members of the used list. -/
theorem pass2_nodup (names : List (List Char)) :
    ∀ opts used cs, pass2 used names opts = .ok cs →
      used.Nodup →
      (∀ c, c ∈ opts.filterMap id → c ∈ used) →
      (opts.filterMap id).Nodup →
      cs.Nodup ∧ ∀ d ∈ cs, d ∈ used → d ∈ opts.filterMap id := by
  induction names with
  | nil =>
    intro opts used cs h _ _ _
    match opts with
    | [] => simp only [pass2] at h; cases h; simp
    | _ :: _ => simp [pass2] at h
  | cons name rest ih =>
    intro opts used cs h hnd hsub hsomes
    match opts with
    | [] => simp [pass2] at h
    | some c :: os =>
      simp only [pass2] at h
      cases hrec : pass2 used rest os with
      | error e => rw [hrec] at h; simp at h
      | ok cs' =>
        rw [hrec] at h
        cases h
        simp only [List.filterMap_cons, id] at hsub hsomes ⊢
        obtain ⟨hcF, hFnd⟩ := List.nodup_cons.mp hsomes
        have hsub' : ∀ d, d ∈ os.filterMap id → d ∈ used := by
          intro d hd; exact hsub d (List.mem_cons_of_mem _ hd)
        obtain ⟨hnd', hmem'⟩ := ih os used cs' hrec hnd hsub' hFnd
        constructor
        · refine List.nodup_cons.mpr ⟨?_, hnd'⟩
          intro hc
          exact hcF (hmem' c hc (hsub c (List.mem_cons_self _ _)))
        · intro d hd hdu
          rcases List.mem_cons.mp hd with rfl | hd'
          · exact List.mem_cons_self _ _
          · exact List.mem_cons_of_mem _ (hmem' d hd' hdu)
    | Option.none :: os =>
      simp only [pass2] at h
      match name with
      | [] => simp at h
      | a :: as =>
        simp only at h
        cases hfc : find_char used (a :: as) with
        | none => rw [hfc] at h; simp at h
        | some c =>
          rw [hfc] at h
          dsimp only at h
          cases hrec : pass2 (used ++ [c]) rest os with
          | error e => rw [hrec] at h; simp at h
          | ok cs' =>
            rw [hrec] at h
            simp only [Except.ok.injEq] at h
            subst h
            have hcu : c ∉ used := find_char_not_mem used (a :: as) c hfc
            simp only [List.filterMap_cons, id] at hsub hsomes ⊢
            have hnd2 : (used ++ [c]).Nodup := by
              simp [List.nodup_append, hnd, hcu]
            have hsub2 : ∀ d, d ∈ os.filterMap id → d ∈ used ++ [c] := by
              intro d hd
              exact List.mem_append_left _ (hsub d hd)
            obtain ⟨hnd', hmem'⟩ := ih os (used ++ [c]) cs' hrec hnd2 hsub2 hsomes
            constructor
            · refine List.nodup_cons.mpr ⟨?_, hnd'⟩
              intro hc
              have : c ∈ os.filterMap id :=
                hmem' c hc (List.mem_append_right _ (List.mem_singleton.mpr rfl))
              exact hcu (hsub c this)
            · intro d hd hdu
              rcases List.mem_cons.mp hd with rfl | hd'
              · exact absurd hdu hcu
              · exact hmem' d hd' (List.mem_append_left _ hdu)

/-- The label list is aligned with the snakes and pairwise distinct. -/
theorem set_snake_chars_spec (snakes : List Snake) (chars : List Char)
    (h : set_snake_chars snakes = .ok chars) :
    chars.length = snakes.length ∧ chars.Nodup := by
  unfold set_snake_chars at h
  cases hp1 : pass1 [] (snakes.map Snake.name) with
  | error e => rw [hp1] at h; simp at h
  | ok p =>
    rw [hp1] at h
    obtain ⟨opts, u⟩ := p
    simp only at h
    obtain ⟨hlen, hu, hnd⟩ := pass1_spec (snakes.map Snake.name) [] opts u hp1
    simp only [List.nil_append] at hu
    have hund : u.Nodup := hnd List.nodup_nil
    have hlen2 := pass2_length (snakes.map Snake.name) opts u chars h
    have hnodup := pass2_nodup (snakes.map Snake.name) opts u chars h hund
      (by intro c hc; rw [hu]; exact hc)
      (hu ▸ hund)
    refine ⟨by simpa using hlen2, hnodup.1⟩

/-- Pass 1 never raises when every name is non-empty. -/
theorem pass1_ok_of_nonempty (names : List (List Char)) :
    ∀ used, (∀ n ∈ names, n ≠ []) →
      ∃ opts u, pass1 used names = .ok (opts, u) := by
  induction names with
  | nil => intro used _; exact ⟨[], used, rfl⟩
  | cons name rest ih =>
    intro used hne
    match hname : name with
    | [] => exact absurd rfl (hne [] (by simp))
    | c0 :: cs =>
      have hrest : ∀ n ∈ rest, n ≠ [] := fun n hn => hne n (List.mem_cons_of_mem _ hn)
      simp only [pass1]
      by_cases hm : pyUpper c0 ∈ used
      · rw [if_pos hm]
        obtain ⟨os, u, hrec⟩ := ih used hrest
        rw [hrec]
        exact ⟨Option.none :: os, u, rfl⟩
      · rw [if_neg hm]
        obtain ⟨os, u, hrec⟩ := ih (used ++ [pyUpper c0]) hrest
        rw [hrec]
        exact ⟨some (pyUpper c0) :: os, u, rfl⟩

/-- Pass 1 returns one entry per name. -/
theorem pass1_length (names : List (List Char)) :
    ∀ used opts u, pass1 used names = .ok (opts, u) → opts.length = names.length :=
  fun used opts u h => (pass1_spec names used opts u h).1

/-- Pass 2 can only raise `ValueError` (alphabet exhaustion) when every
name is non-empty and the assignment list is aligned. -/
theorem pass2_ne_indexError (names : List (List Char)) :
    ∀ opts used, (∀ n ∈ names, n ≠ []) → opts.length = names.length →
      pass2 used names opts ≠ .error .indexError := by
  induction names with
  | nil =>
    intro opts used _ hlen
    match opts with
    | [] => simp [pass2]
    | _ :: _ => simp at hlen
  | cons name rest ih =>
    intro opts used hne hlen
    match opts with
    | [] => simp at hlen
    | some c :: os =>
      simp only [pass2]
      cases hrec : pass2 used rest os with
      | error e =>
        dsimp only
        intro h
        simp only [Except.error.injEq] at h
        subst h
        exact ih os used (fun n hn => hne n (List.mem_cons_of_mem _ hn))
          (by simpa using hlen) hrec
      | ok cs' => simp
    | Option.none :: os =>
      simp only [pass2]
      match hname : name with
      | [] => exact absurd rfl (hne [] (by simp))
      | a :: as =>
        simp only
        cases hfc : find_char used (a :: as) with
        | none => simp
        | some c =>
          dsimp only
          cases hrec : pass2 (used ++ [c]) rest os with
          | error e =>
            dsimp only
            intro h
            simp only [Except.error.injEq] at h
            subst h
            exact ih os (used ++ [c]) (fun n hn => hne n (List.mem_cons_of_mem _ hn))
              (by simpa using hlen) hrec
          | ok cs' => simp

/-! ## Claim theorems about the Label Assigner -/

/-- C2, counterexample: on two snakes both named `"Bob"`, the second
snake's label is `'O'` (the upper-cased second letter of its name, which is
unused), not `'a'`: the claimed fall-through to the alphabet scan does not
happen. -/
theorem c2_counterexample :
    set_snake_chars bobSnakes = .ok ['B', 'O'] ∧ ('O' : Char) ≠ 'a' :=
  ⟨rfl, by decide⟩

/-- C2, amended: the first `"Bob"` gets `'B'`; the second is deferred to
the conflict pass, finds `'B'` used and lands on `'O'`, the upper-cased
next character of its name, without reaching the alphabet scan.  Used-letter
membership is compared case-sensitively, so a pair of labels differing only
in case can be produced: two snakes named `"Aa"` get `'A'` and `'a'`.  The
resulting labels are deterministic given the fixed input order (the
assigner is a pure function of the ordered name list). -/
theorem c2_amended :
    set_snake_chars bobSnakes = .ok ['B', 'O'] ∧
      set_snake_chars aaSnakes = .ok ['A', 'a'] :=
  ⟨rfl, rfl⟩

/-- C3, counterexample: labels need not be uppercase letters: on two
snakes named `"Aa"` the second label is the lowercase letter `'a'`
(produced by the alphabet fallback scan). -/
theorem c3_counterexample :
    set_snake_chars aaSnakes = .ok ['A', 'a'] ∧
      ¬(65 ≤ ('a' : Char).toNat ∧ ('a' : Char).toNat ≤ 90) :=
  ⟨rfl, by decide⟩

/-- C3, amended: for every frame with N live snakes the assigner, when it
succeeds, assigns N pairwise-distinct label characters, unique across all
live snakes of the frame; the label is not always an uppercase letter: it
is an upper-cased character of a snake name (which can be any character)
or a lowercase letter from the fallback alphabet scan. -/
theorem c3_amended (snakes : List Snake) (chars : List Char)
    (h : set_snake_chars snakes = .ok chars) :
    chars.length = snakes.length ∧ chars.Nodup :=
  set_snake_chars_spec snakes chars h

/-- Witness for `c3_amended` at a concrete input. -/
theorem c3_witness :
    set_snake_chars bobSnakes = .ok ['B', 'O'] ∧
      (['B', 'O'].length = bobSnakes.length ∧ ['B', 'O'].Nodup) :=
  ⟨rfl, c3_amended bobSnakes ['B', 'O'] rfl⟩

/-- C9: after `validate_snake_names` no display name is empty, so the
label assigner's access to the first character of each name always
succeeds: it never raises the error associated with an empty name
(`IndexError`; the spec's `InvalidInputError`). -/
theorem c9_no_invalid_input (snakes : List Snake) :
    (∀ s ∈ validate_snake_names snakes, s.name ≠ []) ∧
      set_snake_chars (validate_snake_names snakes) ≠ .error .indexError := by
  have hne : ∀ s ∈ validate_snake_names snakes, s.name ≠ [] := by
    intro s hs
    unfold validate_snake_names at hs
    obtain ⟨s0, _, rfl⟩ := List.mem_map.mp hs
    by_cases h0 : s0.name = []
    · simp [h0]
    · simp [h0]
  refine ⟨hne, ?_⟩
  have hnames : ∀ n ∈ (validate_snake_names snakes).map Snake.name, n ≠ [] := by
    intro n hn
    obtain ⟨s, hs, rfl⟩ := List.mem_map.mp hn
    exact hne s hs
  unfold set_snake_chars
  obtain ⟨opts, u, hp1⟩ :=
    pass1_ok_of_nonempty ((validate_snake_names snakes).map Snake.name) [] hnames
  rw [hp1]
  exact pass2_ne_indexError ((validate_snake_names snakes).map Snake.name) opts u hnames
    (pass1_length _ [] opts u hp1)

/-! ## Claim theorems about the Body Segment Renderer -/

/-- C6: the head glyph (body index 0) follows the claim's head rule, the
tail glyph (last index) follows the same rule against the previous
segment, and a snake of body length 1 renders only the head glyph (the
tail branch is never taken for it). -/
theorem c6_head_tail (ch : Char) (body : List Pos) :
    segment_glyph ch body 0 = head_glyph_spec ch body ∧
    (2 ≤ body.length → segment_glyph ch body (body.length - 1) = tail_glyph_spec ch body) ∧
    (∀ p : Pos, segment_glyph ch [p] 0 = String.singleton (pyUpper ch) ++ " ") := by
  refine ⟨?_, ?_, ?_⟩
  · simp [segment_glyph, head_glyph_spec]
  · intro h2
    have hne : body.length - 1 ≠ 0 := by omega
    have e : body.length - 1 - 1 = body.length - 2 := by omega
    simp only [segment_glyph, tail_glyph_spec, if_neg hne, if_pos rfl, e]
    simp
  · intro p
    simp [segment_glyph]

/-- Witness for `c6_head_tail` on a three-segment body whose second
segment sits one cell to the right of the head, and on a singleton body. -/
theorem c6_witness :
    segment_glyph 'x' [⟨0, 0⟩, ⟨1, 0⟩, ⟨1, 1⟩] 0 = head_glyph_spec 'x' [⟨0, 0⟩, ⟨1, 0⟩, ⟨1, 1⟩] ∧
    segment_glyph 'x' [⟨0, 0⟩, ⟨1, 0⟩, ⟨1, 1⟩] 2 = tail_glyph_spec 'x' [⟨0, 0⟩, ⟨1, 0⟩, ⟨1, 1⟩] ∧
    segment_glyph 'x' [⟨9, 9⟩] 0 = String.singleton (pyUpper 'x') ++ " " := by
  have h := c6_head_tail 'x' [⟨0, 0⟩, ⟨1, 0⟩, ⟨1, 1⟩]
  exact ⟨h.1, h.2.1 (by decide), h.2.2 ⟨9, 9⟩⟩

/-- C7: an interior segment's glyph is determined from the previous and
next segments exactly as the claim describes (vertical when they share
`x`, horizontal when they share `y`, otherwise the midpoint-quadrant
corner), and the middle segment of the straight vertical body
`[(2,2),(2,1),(2,0)]` renders as the vertical glyph. -/
theorem c7_interior (body : List Pos) (index : Nat) (prev target next : Pos)
    (hp : body[index - 1]? = some prev)
    (ht : body[index]? = some target)
    (hn : body[index + 1]? = some next) :
    get_body_char body index = interior_glyph_spec prev target next ∧
    get_body_char [⟨2, 2⟩, ⟨2, 1⟩, ⟨2, 0⟩] 1 = "║ " := by
  constructor
  · unfold get_body_char interior_glyph_spec
    rw [List.getD_eq_getElem?_getD, List.getD_eq_getElem?_getD, List.getD_eq_getElem?_getD,
      hp, ht, hn]
    simp only [Option.getD_some]
  · rfl

/-- Witness for `c7_interior` at the corner body `[(0,0),(0,1),(1,1)]`
(the example of the source docstring). -/
theorem c7_witness :
    get_body_char [⟨0, 0⟩, ⟨0, 1⟩, ⟨1, 1⟩] 1 = interior_glyph_spec ⟨0, 0⟩ ⟨0, 1⟩ ⟨1, 1⟩ ∧
    get_body_char [⟨2, 2⟩, ⟨2, 1⟩, ⟨2, 0⟩] 1 = "║ " :=
  c7_interior [⟨0, 0⟩, ⟨0, 1⟩, ⟨1, 1⟩] 1 ⟨0, 0⟩ ⟨0, 1⟩ ⟨1, 1⟩ rfl rfl rfl

/-! ## Lemmas about the Board Layout Builder -/

theorem pyIdx_none_iff (n : Nat) (i : Int) :
    pyIdx n i = Option.none ↔ ¬(-(n : Int) ≤ i ∧ i < (n : Int)) := by
  unfold pyIdx
  split_ifs with h1 h2 <;> simp <;> omega

theorem pyIdx_some_bounds {n : Nat} {i : Int} {r : Nat} (h : pyIdx n i = some r) :
    -(n : Int) ≤ i ∧ i < (n : Int) := by
  by_contra hc
  rw [← pyIdx_none_iff] at hc
  rw [h] at hc
  exact Option.noConfusion hc

theorem pyIdx_some_lt {n : Nat} {i : Int} {r : Nat} (h : pyIdx n i = some r) : r < n := by
  unfold pyIdx at h
  split_ifs at h with h1 h2 <;> simp at h <;> omega

theorem pyIdx_nonneg_eq {n : Nat} {i : Int} (h0 : 0 ≤ i) (hn : i < (n : Int)) :
    pyIdx n i = some i.toNat := by
  unfold pyIdx
  rw [if_pos ⟨h0, hn⟩]

theorem init_bucket_shaped (width height : Nat) :
    Shaped (init_bucket width height) height width := by
  refine ⟨by simp [init_bucket], ?_⟩
  intro row hrow
  rw [List.eq_of_mem_replicate hrow]
  simp

theorem getCell_init {width height r c : Nat} (hr : r < height) (hc : c < width) :
    getCell (init_bucket width height) r c = some ". " := by
  simp [getCell, init_bucket, List.getElem?_replicate, hr, hc]

theorem getD_row_length {b : List (List String)} {h w : Nat} (hsh : Shaped b h w)
    {r : Nat} (hr : r < b.length) : (b.getD r []).length = w := by
  rw [List.getD_eq_getElem?_getD, List.getElem?_eq_getElem hr]
  exact hsh.2 _ (List.getElem_mem hr)

theorem setCell_none_iff {b : List (List String)} {h w : Nat} (hsh : Shaped b h w)
    (p : Pos) (g : String) :
    setCell b p g = Option.none ↔ ¬ pyInBounds w h p := by
  unfold setCell
  cases hy : pyIdx b.length p.y with
  | none =>
    dsimp only
    rw [pyIdx_none_iff, hsh.1] at hy
    simp only [true_iff]
    unfold pyInBounds
    omega
  | some r =>
    dsimp only
    have hr : r < b.length := pyIdx_some_lt hy
    have hyb := pyIdx_some_bounds hy
    rw [hsh.1] at hyb
    have hrl : (b.getD r []).length = w := getD_row_length hsh hr
    cases hx : pyIdx (b.getD r []).length p.x with
    | none =>
      dsimp only
      rw [pyIdx_none_iff, hrl] at hx
      simp only [true_iff]
      unfold pyInBounds
      omega
    | some cc =>
      dsimp only
      have hxb := pyIdx_some_bounds hx
      rw [hrl] at hxb
      simp only [reduceCtorEq, false_iff, not_not]
      exact ⟨hxb.1, hxb.2, hyb.1, hyb.2⟩

theorem setCell_shaped {b b' : List (List String)} {h w : Nat} (hsh : Shaped b h w)
    (p : Pos) (g : String) (hs : setCell b p g = some b') : Shaped b' h w := by
  unfold setCell at hs
  cases hy : pyIdx b.length p.y with
  | none => rw [hy] at hs; exact Option.noConfusion hs
  | some r =>
    rw [hy] at hs
    dsimp only at hs
    cases hx : pyIdx (b.getD r []).length p.x with
    | none => rw [hx] at hs; exact Option.noConfusion hs
    | some cc =>
      rw [hx] at hs
      dsimp only at hs
      injection hs with hb'
      subst hb'
      refine ⟨by simp [hsh.1], ?_⟩
      intro row hrow
      rcases List.mem_or_eq_of_mem_set hrow with hm | rfl
      · exact hsh.2 _ hm
      · have hr : r < b.length := pyIdx_some_lt hy
        rw [List.length_set]
        exact getD_row_length hsh hr

theorem setCell_getCell {b b' : List (List String)} {h w : Nat} (hsh : Shaped b h w)
    {p : Pos} {g : String} (hin : inBounds w h p) (hs : setCell b p g = some b') :
    ∀ r c : Nat, getCell b' r c =
      if p.x = (c : Int) ∧ p.y = (r : Int) then some g else getCell b r c := by
  obtain ⟨hx0, hxw, hy0, hyh⟩ := hin
  have hylen : p.y < (b.length : Int) := by rw [hsh.1]; exact hyh
  have hy : pyIdx b.length p.y = some p.y.toNat := pyIdx_nonneg_eq hy0 hylen
  have hrn : p.y.toNat < b.length := by omega
  have hrl : (b.getD p.y.toNat []).length = w := getD_row_length hsh hrn
  have hx : pyIdx (b.getD p.y.toNat []).length p.x = some p.x.toNat := by
    rw [hrl]; exact pyIdx_nonneg_eq hx0 hxw
  have hcn : p.x.toNat < (b.getD p.y.toNat []).length := by omega
  unfold setCell at hs
  rw [hy] at hs
  dsimp only at hs
  rw [hx] at hs
  dsimp only at hs
  injection hs with hb'
  subst hb'
  intro r c
  by_cases hmatch : p.x = (c : Int) ∧ p.y = (r : Int)
  · rw [if_pos hmatch]
    have hrc : p.y.toNat = r := by omega
    have hcc : p.x.toNat = c := by omega
    subst hrc
    subst hcc
    unfold getCell
    rw [List.getElem?_set_self (by simpa using hrn)]
    simp only [Option.some_bind]
    rw [List.getElem?_set_self (by simpa using hcn)]
  · rw [if_neg hmatch]
    unfold getCell
    by_cases hrow : p.y.toNat = r
    · subst hrow
      have hcne : p.x.toNat ≠ c := by omega
      rw [List.getElem?_set_self (by simpa using hrn)]
      simp only [Option.some_bind]
      rw [List.getElem?_set_ne hcne]
      rw [List.getD_eq_getElem?_getD, List.getElem?_eq_getElem hrn]
      simp
    · rw [List.getElem?_set_ne hrow]

theorem apply_writes_shaped {h w : Nat} :
    ∀ (ws : List (Pos × String)) (b b' : List (List String)), Shaped b h w →
      apply_writes b ws = some b' → Shaped b' h w := by
  intro ws
  induction ws with
  | nil =>
    intro b b' hsh happ
    simp only [apply_writes] at happ
    injection happ with hb
    subst hb
    exact hsh
  | cons pg rest ih =>
    intro b b' hsh happ
    simp only [apply_writes] at happ
    cases hs : setCell b pg.1 pg.2 with
    | none => rw [hs] at happ; exact Option.noConfusion happ
    | some b1 =>
      rw [hs] at happ
      dsimp only at happ
      exact ih b1 b' (setCell_shaped hsh _ _ hs) happ

theorem apply_writes_none_iff {h w : Nat} :
    ∀ (ws : List (Pos × String)) (b : List (List String)), Shaped b h w →
      (apply_writes b ws = Option.none ↔ ∃ pg ∈ ws, ¬ pyInBounds w h pg.1) := by
  intro ws
  induction ws with
  | nil => intro b _; simp [apply_writes]
  | cons pg rest ih =>
    intro b hsh
    simp only [apply_writes]
    cases hs : setCell b pg.1 pg.2 with
    | none =>
      dsimp only
      simp only [true_iff]
      exact ⟨pg, by simp, (setCell_none_iff hsh _ _).mp hs⟩
    | some b1 =>
      dsimp only
      rw [ih b1 (setCell_shaped hsh _ _ hs)]
      constructor
      · rintro ⟨q, hq, hnb⟩
        exact ⟨q, List.mem_cons_of_mem _ hq, hnb⟩
      · rintro ⟨q, hq, hnb⟩
        rcases List.mem_cons.mp hq with rfl | hq'
        · exfalso
          rw [(setCell_none_iff hsh _ _).mpr hnb] at hs
          exact Option.noConfusion hs
        · exact ⟨q, hq', hnb⟩

theorem writes_at_cons (P : Pos) (pg : Pos × String) (ws : List (Pos × String)) :
    writes_at P (pg :: ws) =
      if pg.1 = P then pg.2 :: writes_at P ws else writes_at P ws := by
  simp only [writes_at, List.filter_cons, beq_iff_eq]
  split_ifs <;> simp

theorem writes_at_append (P : Pos) (ws₁ ws₂ : List (Pos × String)) :
    writes_at P (ws₁ ++ ws₂) = writes_at P ws₁ ++ writes_at P ws₂ := by
  simp [writes_at, List.filter_append]

theorem writes_at_eq_nil_iff (P : Pos) (ws : List (Pos × String)) :
    writes_at P ws = [] ↔ ∀ pg ∈ ws, pg.1 ≠ P := by
  simp [writes_at, List.filter_eq_nil_iff]

theorem last?_cons_cons (a b : α) (l : List α) :
    last? (a :: b :: l) = last? (b :: l) := rfl

theorem last?_isSome_of_ne_nil : ∀ (l : List α), l ≠ [] → ∃ a, last? l = some a := by
  intro l
  induction l with
  | nil => intro h; exact absurd rfl h
  | cons a rest ih =>
    intro _
    match rest with
    | [] => exact ⟨a, rfl⟩
    | b :: t =>
      obtain ⟨x, hx⟩ := ih (by simp)
      exact ⟨x, by rw [last?_cons_cons]; exact hx⟩

theorem last?_append_right : ∀ l₁ l₂ : List α, l₂ ≠ [] → last? (l₁ ++ l₂) = last? l₂
  | [], _, _ => rfl
  | a :: rest, l₂, hne => by
    have h2 : rest ++ l₂ ≠ [] := fun hc => hne (List.append_eq_nil.mp hc).2
    obtain ⟨b, t, hbt⟩ : ∃ b t, rest ++ l₂ = b :: t := by
      cases hq : rest ++ l₂ with
      | nil => exact absurd hq h2
      | cons b t => exact ⟨b, t, rfl⟩
    rw [List.cons_append, hbt, last?_cons_cons, ← hbt]
    exact last?_append_right rest l₂ hne

theorem apply_writes_getCell {h w : Nat} :
    ∀ (ws : List (Pos × String)) (b b' : List (List String)), Shaped b h w →
      (∀ pg ∈ ws, inBounds w h pg.1) →
      apply_writes b ws = some b' →
      ∀ r c : Nat,
        (writes_at ⟨(c : Int), (r : Int)⟩ ws = [] → getCell b' r c = getCell b r c) ∧
        (∀ g, last? (writes_at ⟨(c : Int), (r : Int)⟩ ws) = some g →
          getCell b' r c = some g) := by
  intro ws
  induction ws with
  | nil =>
    intro b b' hsh hin happ r c
    simp only [apply_writes] at happ
    injection happ with hb
    subst hb
    exact ⟨fun _ => rfl, fun g hg => by simp [writes_at, last?] at hg⟩
  | cons pg rest ih =>
    intro b b' hsh hin happ r c
    simp only [apply_writes] at happ
    cases hs : setCell b pg.1 pg.2 with
    | none => rw [hs] at happ; exact Option.noConfusion happ
    | some b1 =>
      rw [hs] at happ
      dsimp only at happ
      have hsh1 := setCell_shaped hsh _ _ hs
      have hget := setCell_getCell hsh (hin pg (by simp)) hs r c
      have ihrc := ih b1 b' hsh1 (fun q hq => hin q (List.mem_cons_of_mem _ hq)) happ r c
      rw [writes_at_cons]
      by_cases hm : pg.1 = (⟨(c : Int), (r : Int)⟩ : Pos)
      · rw [if_pos hm]
        have hmm : pg.1.x = (c : Int) ∧ pg.1.y = (r : Int) := by
          rw [hm]; exact ⟨rfl, rfl⟩
        constructor
        · intro hemp
          exact absurd hemp (by simp)
        · intro g hlast
          cases hre : writes_at ⟨(c : Int), (r : Int)⟩ rest with
          | nil =>
            rw [hre] at hlast
            injection hlast with hg
            subst hg
            rw [ihrc.1 hre, hget, if_pos hmm]
          | cons a t =>
            rw [hre] at hlast
            rw [last?_cons_cons] at hlast
            exact ihrc.2 g (by rw [hre]; exact hlast)
      · rw [if_neg hm]
        have hmm : ¬(pg.1.x = (c : Int) ∧ pg.1.y = (r : Int)) := by
          intro hc
          refine hm ?_
          obtain ⟨h1, h2⟩ := hc
          cases hp : pg.1 with
          | mk px py =>
            rw [hp] at h1 h2
            simp only at h1 h2
            rw [h1, h2]
        constructor
        · intro hemp
          rw [ihrc.1 hemp, hget, if_neg hmm]
        · intro g hlast
          exact ihrc.2 g hlast

theorem mem_of_getElem_opt {l : List α} {i : Nat} {a : α} (h : l[i]? = some a) : a ∈ l := by
  obtain ⟨hlt, he⟩ := List.getElem?_eq_some.mp h
  exact he ▸ List.getElem_mem hlt

/-- The positions written by one snake are exactly its body positions. -/
theorem snake_writes_positions (ch : Char) (body : List Pos) (P : Pos → Prop) :
    (∃ pg ∈ snake_writes ch body, P pg.1) ↔ ∃ p ∈ body, P p := by
  unfold snake_writes
  constructor
  · rintro ⟨pg, hm, hP⟩
    obtain ⟨ip, hip, rfl⟩ := List.mem_map.mp hm
    have hg := List.mem_enum_iff_getElem?.mp hip
    exact ⟨ip.2, mem_of_getElem_opt hg, hP⟩
  · rintro ⟨p, hp, hP⟩
    obtain ⟨i, hi⟩ := List.getElem?_of_mem hp
    have henum : (i, p) ∈ body.enum := by
      rw [List.mem_enum_iff_getElem?]
      exact hi
    exact ⟨(p, segment_glyph ch body i), List.mem_map.mpr ⟨(i, p), henum, rfl⟩, hP⟩

/-- The positions of `all_writes` are the food positions and the body
positions of the labeled snakes. -/
theorem all_writes_positions (foods : List Pos) (labeled : List (Snake × Char)) (P : Pos → Prop) :
    (∃ pg ∈ all_writes foods labeled, P pg.1) ↔
      (∃ p ∈ foods, P p) ∨ ∃ sc ∈ labeled, ∃ p ∈ sc.1.body, P p := by
  unfold all_writes
  constructor
  · rintro ⟨pg, hm, hP⟩
    rcases List.mem_append.mp hm with hf | hs
    · obtain ⟨p, hp, rfl⟩ := List.mem_map.mp hf
      exact Or.inl ⟨p, hp, hP⟩
    · obtain ⟨l, hl, hpg⟩ := List.mem_flatten.mp hs
      obtain ⟨sc, hsc, rfl⟩ := List.mem_map.mp hl
      refine Or.inr ⟨sc, hsc, ?_⟩
      exact (snake_writes_positions sc.2 sc.1.body P).mp ⟨pg, hpg, hP⟩
  · rintro (⟨p, hp, hP⟩ | ⟨sc, hsc, hbody⟩)
    · exact ⟨(p, "% "), List.mem_append_left _ (List.mem_map.mpr ⟨p, hp, rfl⟩), hP⟩
    · obtain ⟨pg, hpg, hP⟩ := (snake_writes_positions sc.2 sc.1.body P).mpr hbody
      refine ⟨pg, List.mem_append_right _ ?_, hP⟩
      exact List.mem_flatten.mpr ⟨_, List.mem_map.mpr ⟨sc, hsc, rfl⟩, hpg⟩

/-- Pairs of a zip with full-length second component cover the first list. -/
theorem zip_fst_exists_iff {l₁ : List α} {l₂ : List β} (hlen : l₂.length = l₁.length)
    (Q : α → Prop) :
    (∃ ab ∈ l₁.zip l₂, Q ab.1) ↔ ∃ a ∈ l₁, Q a := by
  constructor
  · rintro ⟨⟨a, b⟩, hm, hq⟩
    exact ⟨a, (List.of_mem_zip hm).1, hq⟩
  · rintro ⟨a, ha, hq⟩
    obtain ⟨i, hi⟩ := List.getElem?_of_mem ha
    have hlt : i < l₁.length := (List.getElem?_eq_some.mp hi).1
    have hlt2 : i < l₂.length := by omega
    have hb : l₂[i]? = some l₂[i] := List.getElem?_eq_getElem hlt2
    have hz : (l₁.zip l₂)[i]? = some (a, l₂[i]) :=
      List.getElem?_zip_eq_some.mpr ⟨hi, hb⟩
    exact ⟨(a, l₂[i]), mem_of_getElem_opt hz, hq⟩

/-! ## Claim theorems about the Board Layout Builder -/

/-- C1, counterexample: a food position with `x = -1` lies outside the
declared dimensions (`x` is not in `[0, width)`), yet rendering succeeds:
Python's negative indexing wraps it to the opposite edge instead of
raising. -/
theorem c1_counterexample :
    ¬ inBounds 2 2 ⟨-1, 0⟩ ∧
      (get_board_string "gid" "0" ⟨2, 2⟩ ⟨[⟨-1, 0⟩], []⟩ FormatOption.none).isOk = true :=
  ⟨by decide, rfl⟩

/-- C1, amended: provided label assignment succeeds, rendering fails with
the out-of-bounds error (`IndexError`, the spec's `OutOfBoundsError`) iff
some food or live-snake body position lies outside the Python index range
`[-width, width) × [-height, height)`; a position whose coordinates are
negative but at least `-width`/`-height` wraps to the opposite edge and
does not fail, and a frame whose positions all lie inside the Python range
renders successfully. -/
theorem c1_amended (game_id turn : String) (game : Game) (frame : Frame) (fmt : FormatOption)
    (chars : List Char) (hchars : set_snake_chars (live_snakes frame) = .ok chars) :
    (get_board_string game_id turn game frame fmt = .error .indexError ↔
      (∃ p ∈ frame.food, ¬ pyInBounds game.width game.height p) ∨
        ∃ s ∈ live_snakes frame, ∃ p ∈ s.body, ¬ pyInBounds game.width game.height p) ∧
    ((∀ p ∈ frame.food, pyInBounds game.width game.height p) →
      (∀ s ∈ live_snakes frame, ∀ p ∈ s.body, pyInBounds game.width game.height p) →
        (get_board_string game_id turn game frame fmt).isOk = true) := by
  have hlen : chars.length = (live_snakes frame).length :=
    (set_snake_chars_spec _ _ hchars).1
  have hiff : ∀ P : Pos → Prop,
      ((∃ p ∈ frame.food, P p) ∨
        ∃ sc ∈ (live_snakes frame).zip chars, ∃ p ∈ sc.1.body, P p) ↔
      ((∃ p ∈ frame.food, P p) ∨ ∃ s ∈ live_snakes frame, ∃ p ∈ s.body, P p) := by
    intro P
    refine or_congr Iff.rfl ?_
    exact zip_fst_exists_iff hlen (fun s => ∃ p ∈ s.body, P p)
  have hnone := apply_writes_none_iff (h := game.height) (w := game.width)
    (all_writes frame.food ((live_snakes frame).zip chars))
    (init_bucket game.width game.height) (init_bucket_shaped _ _)
  simp only [get_board_string]
  rw [hchars]
  dsimp only
  cases happ : apply_writes (init_bucket game.width game.height)
      (all_writes frame.food ((live_snakes frame).zip chars)) with
  | none =>
    dsimp only
    have hex := (hiff _).mp
      ((all_writes_positions frame.food ((live_snakes frame).zip chars)
        (fun p => ¬ pyInBounds game.width game.height p)).mp (hnone.mp happ))
    constructor
    · simp only [true_iff]
      exact hex
    · intro hf hb
      exfalso
      rcases hex with ⟨p, hp, hnb⟩ | ⟨s, hs, p, hp, hnb⟩
      · exact hnb (hf p hp)
      · exact hnb (hb s hs p hp)
  | some bucket =>
    dsimp only
    constructor
    · simp only [reduceCtorEq, false_iff]
      intro hex
      have : apply_writes (init_bucket game.width game.height)
          (all_writes frame.food ((live_snakes frame).zip chars)) = Option.none := by
        rw [hnone]
        exact (all_writes_positions frame.food ((live_snakes frame).zip chars)
          (fun p => ¬ pyInBounds game.width game.height p)).mpr ((hiff _).mpr hex)
      rw [happ] at this
      exact Option.noConfusion this
    · intro _ _
      rfl

/-- C8: in the built board grid every cell not covered by a food position
or a live snake body segment holds the empty glyph `". "`, and a cell
covered by some snake segment shows the glyph of the last segment written
there (food is written first, snakes after, so the snake's glyph wins). -/
theorem c8_layout (foods : List Pos) (labeled : List (Snake × Char)) (width height : Nat)
    (bucket : List (List String)) (r c : Nat)
    (happ : apply_writes (init_bucket width height) (all_writes foods labeled) = some bucket)
    (hf : ∀ p ∈ foods, inBounds width height p)
    (hb : ∀ sc ∈ labeled, ∀ p ∈ sc.1.body, inBounds width height p)
    (hr : r < height) (hc : c < width) :
    ((∀ p ∈ foods, ¬(p.x = (c : Int) ∧ p.y = (r : Int))) →
      (∀ sc ∈ labeled, ∀ p ∈ sc.1.body, ¬(p.x = (c : Int) ∧ p.y = (r : Int))) →
        getCell bucket r c = some ". ") ∧
    (∀ g, last? (writes_at ⟨(c : Int), (r : Int)⟩
        ((labeled.map (fun sc => snake_writes sc.2 sc.1.body)).flatten)) = some g →
      getCell bucket r c = some g) := by
  have hin : ∀ pg ∈ all_writes foods labeled, inBounds width height pg.1 := by
    intro pg hm
    by_contra hnb
    have hexx := (all_writes_positions foods labeled
      (fun p => ¬ inBounds width height p)).mp ⟨pg, hm, hnb⟩
    rcases hexx with ⟨p, hp, hnp⟩ | ⟨sc, hsc, p, hp, hnp⟩
    · exact hnp (hf p hp)
    · exact hnp (hb sc hsc p hp)
  have hcells := apply_writes_getCell (all_writes foods labeled)
    (init_bucket width height) bucket (init_bucket_shaped _ _) hin happ r c
  constructor
  · intro hnf hnb
    have hempty : writes_at ⟨(c : Int), (r : Int)⟩ (all_writes foods labeled) = [] := by
      rw [writes_at_eq_nil_iff]
      intro pg hm hpeq
      have hexx := (all_writes_positions foods labeled
        (fun p => p = (⟨(c : Int), (r : Int)⟩ : Pos))).mp ⟨pg, hm, hpeq⟩
      rcases hexx with ⟨p, hp, hpe⟩ | ⟨sc, hsc, p, hp, hpe⟩
      · exact hnf p hp (by rw [hpe]; exact ⟨rfl, rfl⟩)
      · exact hnb sc hsc p hp (by rw [hpe]; exact ⟨rfl, rfl⟩)
    rw [hcells.1 hempty]
    exact getCell_init hr hc
  · intro g hlast
    apply hcells.2 g
    unfold all_writes
    rw [writes_at_append]
    have hne : writes_at ⟨(c : Int), (r : Int)⟩
        ((labeled.map (fun sc => snake_writes sc.2 sc.1.body)).flatten) ≠ [] := by
      intro hnil
      rw [hnil] at hlast
      exact Option.noConfusion hlast
    rw [last?_append_right _ _ hne]
    exact hlast

/-- Witness for `c8_layout` on a 2×2 board with one food at the origin and
one one-segment snake on top of it: the overlapped cell shows the snake's
head glyph, an untouched cell shows the empty glyph. -/
theorem c8_witness :
    getCell [["A ", ". "], [". ", ". "]] 1 1 = some ". " ∧
      getCell [["A ", ". "], [". ", ". "]] 0 0 = some "A " := by
  have h1 := c8_layout [⟨0, 0⟩] [(demoSnake "id-1" "a", 'a')] 2 2
    [["A ", ". "], [". ", ". "]] 1 1 rfl (by decide) (by decide) (by decide) (by decide)
  have h2 := c8_layout [⟨0, 0⟩] [(demoSnake "id-1" "a", 'a')] 2 2
    [["A ", ". "], [". ", ". "]] 0 0 rfl (by decide) (by decide) (by decide) (by decide)
  refine ⟨h1.1 (by decide) ?_, h2.2 "A " rfl⟩
  intro sc hsc p hp
  simp only [List.mem_singleton] at hsc
  subst hsc
  simp only [demoSnake] at hp
  simp only [List.mem_singleton] at hp
  subst hp
  decide

/-- Witness for `c1_amended` on the 2×2 frame with the food at `(-1, 0)`. -/
theorem c1_witness :
    (get_board_string "gid" "0" ⟨2, 2⟩ ⟨[⟨-1, 0⟩], []⟩ FormatOption.none = .error .indexError ↔
      (∃ p ∈ [(⟨-1, 0⟩ : Pos)], ¬ pyInBounds 2 2 p) ∨
        ∃ s ∈ live_snakes ⟨[⟨-1, 0⟩], []⟩, ∃ p ∈ s.body, ¬ pyInBounds 2 2 p) ∧
    ((∀ p ∈ [(⟨-1, 0⟩ : Pos)], pyInBounds 2 2 p) →
      (∀ s ∈ live_snakes ⟨[⟨-1, 0⟩], []⟩, ∀ p ∈ s.body, pyInBounds 2 2 p) →
        (get_board_string "gid" "0" ⟨2, 2⟩ ⟨[⟨-1, 0⟩], []⟩ FormatOption.none).isOk = true) :=
  c1_amended "gid" "0" ⟨2, 2⟩ ⟨[⟨-1, 0⟩], []⟩ FormatOption.none [] rfl

/-! ## Lemmas and claim theorems about the Board String Formatter -/

/-- The source's duplicate-name test agrees with the claim's "another live
snake shares the same display name" whenever snake ids are unique, as the
data model guarantees. -/
theorem display_name_eq_spec (snakes : List Snake) (i : Nat) (s : Snake)
    (hget : snakes[i]? = some s) (hnd : (snakes.map Snake.id).Nodup) :
    display_name snakes s = display_name_spec snakes i s := by
  have hi : i < snakes.length := (List.getElem?_eq_some.mp hget).1
  have hsi : snakes[i] = s := by
    have := (List.getElem?_eq_some.mp hget).2
    exact this
  have hcond : (¬ ∀ o ∈ snakes, o.name ≠ s.name ∨ o.id = s.id) ↔
      name_shared snakes i s = true := by
    constructor
    · intro hno
      push_neg at hno
      obtain ⟨o, ho, hname, hid⟩ := hno
      obtain ⟨j, hj⟩ := List.getElem?_of_mem ho
      have hjlt : j < snakes.length := (List.getElem?_eq_some.mp hj).1
      have hsj : snakes[j] = o := (List.getElem?_eq_some.mp hj).2
      have hji : j ≠ i := by
        intro hE
        subst hE
        rw [hsi] at hsj
        subst hsj
        exact hid rfl
      unfold name_shared
      rw [List.any_eq_true]
      refine ⟨j, List.mem_range.mpr hjlt, ?_⟩
      rw [Bool.and_eq_true, bne_iff_ne, beq_iff_eq]
      refine ⟨hji, ?_⟩
      rw [List.getD_eq_getElem?_getD, List.getElem?_eq_getElem hjlt]
      simp only [Option.getD_some]
      rw [hsj, hname]
    · intro hsh
      unfold name_shared at hsh
      rw [List.any_eq_true] at hsh
      obtain ⟨j, hjm, hcond⟩ := hsh
      rw [Bool.and_eq_true, bne_iff_ne, beq_iff_eq] at hcond
      obtain ⟨hji, hname⟩ := hcond
      have hjlt : j < snakes.length := List.mem_range.mp hjm
      rw [List.getD_eq_getElem?_getD, List.getElem?_eq_getElem hjlt] at hname
      simp only [Option.getD_some] at hname
      intro hall
      rcases hall snakes[j] (List.getElem_mem hjlt) with hne | hid
      · exact hne hname
      · have hj2 : j < (snakes.map Snake.id).length := by
          rw [List.length_map]; exact hjlt
        have hi2 : i < (snakes.map Snake.id).length := by
          rw [List.length_map]; exact hi
        have heq : (snakes.map Snake.id)[j] = (snakes.map Snake.id)[i] := by
          rw [List.getElem_map, List.getElem_map, hsi, hid]
        exact hji ((@List.Nodup.getElem_inj_iff _ _ hnd j hj2 i hi2).mp heq)
  unfold display_name display_name_spec
  by_cases hall : ∀ o ∈ snakes, o.name ≠ s.name ∨ o.id = s.id
  · have h1 : snakes.all (fun o => decide (o.name ≠ s.name ∨ o.id = s.id)) = true := by
      rw [List.all_eq_true]
      intro o ho
      exact decide_eq_true (hall o ho)
    have h2 : ¬ name_shared snakes i s = true := fun hc => (hcond.mpr hc) hall
    rw [if_pos h1, if_neg h2]
  · have h2 : name_shared snakes i s = true := hcond.mp hall
    have h1 : ¬ snakes.all (fun o => decide (o.name ≠ s.name ∨ o.id = s.id)) = true := by
      intro hc
      rw [List.all_eq_true] at hc
      exact hall (fun o ho => of_decide_eq_true (hc o ho))
    rw [if_neg h1, if_pos h2]

/-- The annotation of glyph row `2 + i` is the info line of snake `i`. -/
theorem row_note_info (turn : String) (labeled : List (Snake × Char)) (i : Nat)
    (sc : Snake × Char) (hget : labeled[i]? = some sc) :
    row_note turn labeled (2 + i) =
      snake_info_line (labeled.map Prod.fst) sc.1 sc.2 := by
  have hi : i < labeled.length := (List.getElem?_eq_some.mp hget).1
  unfold row_note
  rw [if_neg (by omega), if_pos ⟨by omega, by omega⟩]
  have he : 2 + i - 2 = i := by omega
  rw [he, List.get?_eq_getElem?, hget]

/-- C5: glyph row 0 (from the top) carries `" Turn {turn}"`, and glyph row
`2 + i` carries the info line of snake `i`:
`" {LABEL}: {name} ({health}) <{length}> {shout}"`, where the name gets the
suffix `"/" + id[-6:]` exactly when another live snake shares the same
display name, and the shout part is empty when the snake did not shout.
Snake ids are assumed unique, as the data model declares. -/
theorem c5_annotations (turn : String) (labeled : List (Snake × Char)) (i : Nat)
    (s : Snake) (ch : Char)
    (hget : labeled[i]? = some (s, ch))
    (hnd : ((labeled.map Prod.fst).map Snake.id).Nodup) :
    row_note turn labeled 0 = " Turn " ++ turn ∧
    row_note turn labeled (2 + i) =
      " " ++ String.singleton (pyUpper ch) ++ ": "
        ++ String.mk (display_name_spec (labeled.map Prod.fst) i s)
        ++ " (" ++ String.mk (int_repr s.health) ++ ") <"
        ++ String.mk (nat_repr s.body.length) ++ "> "
        ++ String.mk (if s.shout = [] then [] else '"' :: s.shout ++ ['"']) := by
  constructor
  · rfl
  · rw [row_note_info turn labeled i (s, ch) hget]
    unfold snake_info_line shout_part
    have hmget : (labeled.map Prod.fst)[i]? = some s := by
      rw [List.getElem?_map, hget]
      rfl
    rw [display_name_eq_spec (labeled.map Prod.fst) i s hmget hnd]

/-- Witness for `c5_annotations` on two live snakes both named `"Alice"`:
the info line of the first carries the `/`-suffix. -/
theorem c5_witness :
    row_note "7" aliceSnakes 0 = " Turn " ++ "7" ∧
    row_note "7" aliceSnakes (2 + 0) =
      " " ++ String.singleton (pyUpper 'A') ++ ": "
        ++ String.mk (display_name_spec (aliceSnakes.map Prod.fst) 0 (aliceSnakes.get ⟨0, by decide⟩).1)
        ++ " (" ++ String.mk (int_repr 90) ++ ") <"
        ++ String.mk (nat_repr 2) ++ "> "
        ++ String.mk ([]) :=
  c5_annotations "7" aliceSnakes 0 (aliceSnakes.get ⟨0, by decide⟩).1 'A' rfl (by decide)

/-- C10: when the number of live snakes exceeds `height - 2`, the emitted
glyph rows (there are exactly `height` of them) carry info lines only for
the snakes at indices `0 .. height - 3`; the row that would carry snake
`i ≥ height - 2` is outside the emitted range, so those info lines are
silently absent and nothing fails. -/
theorem c10_truncation (turn : String) (labeled : List (Snake × Char)) (height : Nat)
    (h2 : 2 ≤ height) (_hN : height - 2 < labeled.length) :
    ((List.range height).map (row_note turn labeled)).length = height ∧
    (∀ i sc, i < height - 2 → labeled[i]? = some sc →
      ((List.range height).map (row_note turn labeled))[2 + i]? =
        some (snake_info_line (labeled.map Prod.fst) sc.1 sc.2)) ∧
    (∀ i, height - 2 ≤ i → (2 + i) ∉ List.range height) := by
  refine ⟨by simp, ?_, ?_⟩
  · intro i sc hi hsc
    have hrow : 2 + i < height := by omega
    rw [List.getElem?_map, List.getElem?_range hrow]
    simp only [Option.map_some']
    rw [row_note_info turn labeled i sc hsc]
  · intro i hi
    rw [List.mem_range]
    omega

/-- Witness for `c10_truncation`: two snakes on a board of height 3 show
only the first snake's info line. -/
theorem c10_witness :
    ((List.range 3).map (row_note "5" aliceSnakes)).length = 3 ∧
    (∀ i sc, i < 3 - 2 → aliceSnakes[i]? = some sc →
      ((List.range 3).map (row_note "5" aliceSnakes))[2 + i]? =
        some (snake_info_line (aliceSnakes.map Prod.fst) sc.1 sc.2)) ∧
    (∀ i, 3 - 2 ≤ i → (2 + i) ∉ List.range 3) :=
  c10_truncation "5" aliceSnakes 3 (by decide) (by decide)

/-! ## Character-level lemmas for the line-structure claim -/

theorem char_ofNat_toNat {n : Nat} (h : n.isValidChar) : (Char.ofNat n).toNat = n := by
  unfold Char.ofNat
  rw [dif_pos h]
  simp [Char.ofNatAux, Char.toNat, UInt32.toNat]

theorem pyChr_ne_newline {k : Nat} (h : 97 ≤ k) : pyChr k ≠ '\n' := by
  intro he
  have h10 : (pyChr k).toNat = 10 := by rw [he]; rfl
  unfold pyChr at h10
  by_cases hv : k.isValidChar
  · rw [char_ofNat_toNat hv] at h10
    omega
  · unfold Char.ofNat at h10
    rw [dif_neg hv] at h10
    exact absurd h10 (by decide)

theorem pyUpper_ne_newline {c : Char} (h : c ≠ '\n') : pyUpper c ≠ '\n' := by
  unfold pyUpper
  split_ifs with hr
  · intro he
    have h10 : (Char.ofNat (c.toNat - 32)).toNat = 10 := by rw [he]; rfl
    have hv : (c.toNat - 32).isValidChar := Or.inl (by omega)
    rw [char_ofNat_toNat hv] at h10
    omega
  · exact h

theorem pyLower_ne_newline {c : Char} (h : c ≠ '\n') : pyLower c ≠ '\n' := by
  unfold pyLower
  split_ifs with hr
  · intro he
    have h10 : (Char.ofNat (c.toNat + 32)).toNat = 10 := by rw [he]; rfl
    have hv : (c.toNat + 32).isValidChar := Or.inl (by omega)
    rw [char_ofNat_toNat hv] at h10
    omega
  · exact h

theorem nat_repr_aux_digit : ∀ fuel n : Nat, ∀ c ∈ nat_repr_aux fuel n,
    48 ≤ c.toNat ∧ c.toNat ≤ 57 := by
  intro fuel
  induction fuel with
  | zero => intro n c hc; simp [nat_repr_aux] at hc
  | succ f ih =>
    intro n c hc
    simp only [nat_repr_aux] at hc
    split_ifs at hc with hn
    · simp only [List.mem_singleton] at hc
      subst hc
      have hv : (48 + n).isValidChar := Or.inl (by omega)
      unfold pyChr
      rw [char_ofNat_toNat hv]
      omega
    · rcases List.mem_append.mp hc with hm | hm
      · exact ih (n / 10) c hm
      · simp only [List.mem_singleton] at hm
        subst hm
        have hv : (48 + n % 10).isValidChar := Or.inl (by omega)
        unfold pyChr
        rw [char_ofNat_toNat hv]
        omega

theorem nat_repr_ne_newline (n : Nat) : ∀ c ∈ nat_repr n, c ≠ '\n' := by
  intro c hc he
  have hdig := nat_repr_aux_digit (n + 1) n c hc
  rw [he] at hdig
  exact absurd hdig (by decide)

theorem int_repr_ne_newline (i : Int) : ∀ c ∈ int_repr i, c ≠ '\n' := by
  intro c hc
  unfold int_repr at hc
  split_ifs at hc with hi
  · rcases List.mem_cons.mp hc with rfl | hm
    · decide
    · exact nat_repr_ne_newline _ c hm
  · exact nat_repr_ne_newline _ c hc

/-! ## Where the assigned label characters come from -/

theorem scanName_source (used : List Char) :
    ∀ name c, scanName used name = some c → ∃ a ∈ name, c = pyUpper a := by
  intro name
  induction name with
  | nil => intro c h; simp [scanName] at h
  | cons a rest ih =>
    intro c h
    simp only [scanName] at h
    by_cases hm : pyUpper a ∈ used
    · rw [if_pos hm] at h
      obtain ⟨b, hb, rfl⟩ := ih c h
      exact ⟨b, List.mem_cons_of_mem _ hb, rfl⟩
    · rw [if_neg hm] at h
      cases h
      exact ⟨a, List.mem_cons_self _ _, rfl⟩

theorem alphaScanAux_source (used : List Char) :
    ∀ fuel k c, alphaScanAux used fuel k = some c → ∃ m, k ≤ m ∧ c = pyChr m := by
  intro fuel
  induction fuel with
  | zero => intro k c h; simp [alphaScanAux] at h
  | succ f ih =>
    intro k c h
    simp only [alphaScanAux] at h
    by_cases hm : pyChr k ∈ used
    · rw [if_pos hm] at h
      obtain ⟨m, hk, rfl⟩ := ih (k + 1) c h
      exact ⟨m, by omega, rfl⟩
    · rw [if_neg hm] at h
      cases h
      exact ⟨k, le_refl _, rfl⟩

theorem find_char_source (used name : List Char) (c : Char)
    (h : find_char used name = some c) :
    (∃ a ∈ name, c = pyUpper a) ∨ ∃ m, 97 ≤ m ∧ c = pyChr m := by
  unfold find_char at h
  cases hs : scanName used name with
  | none =>
    rw [hs] at h
    obtain ⟨m, hm, rfl⟩ := alphaScanAux_source used 1114015 97 c h
    exact Or.inr ⟨m, hm, rfl⟩
  | some d =>
    rw [hs] at h
    injection h with hdc
    subst hdc
    exact Or.inl (scanName_source used name d hs)

theorem pass1_source (names : List (List Char)) :
    ∀ used opts u, pass1 used names = .ok (opts, u) →
      ∀ c, some c ∈ opts → ∃ name ∈ names, ∃ a ∈ name, c = pyUpper a := by
  induction names with
  | nil =>
    intro used opts u h c hc
    simp only [pass1] at h
    cases h
    simp at hc
  | cons name rest ih =>
    intro used opts u h c hc
    simp only [pass1] at h
    match hname : name with
    | [] => simp at h
    | c0 :: cs =>
      simp only at h
      by_cases hm : pyUpper c0 ∈ used
      · rw [if_pos hm] at h
        cases hrec : pass1 used rest with
        | error e => rw [hrec] at h; simp at h
        | ok p =>
          obtain ⟨os, u2⟩ := p
          rw [hrec] at h
          simp only [Except.ok.injEq, Prod.mk.injEq] at h
          obtain ⟨ho, hu2⟩ := h
          subst ho
          subst hu2
          rcases List.mem_cons.mp hc with hhd | htl
          · exact absurd hhd (by simp)
          · obtain ⟨nm, hnm, ha⟩ := ih used os _ hrec c htl
            exact ⟨nm, List.mem_cons_of_mem _ hnm, ha⟩
      · rw [if_neg hm] at h
        cases hrec : pass1 (used ++ [pyUpper c0]) rest with
        | error e => rw [hrec] at h; simp at h
        | ok p =>
          obtain ⟨os, u2⟩ := p
          rw [hrec] at h
          simp only [Except.ok.injEq, Prod.mk.injEq] at h
          obtain ⟨ho, hu2⟩ := h
          subst ho
          subst hu2
          rcases List.mem_cons.mp hc with hhd | htl
          · have : c = pyUpper c0 := by
              injection hhd
            exact ⟨c0 :: cs, List.mem_cons_self _ _, c0, List.mem_cons_self _ _, this⟩
          · obtain ⟨nm, hnm, ha⟩ := ih (used ++ [pyUpper c0]) os _ hrec c htl
            exact ⟨nm, List.mem_cons_of_mem _ hnm, ha⟩

theorem pass2_source (names : List (List Char)) :
    ∀ opts used cs, pass2 used names opts = .ok cs →
      ∀ c ∈ cs, (some c ∈ opts) ∨ (∃ name ∈ names, ∃ a ∈ name, c = pyUpper a) ∨
        ∃ m, 97 ≤ m ∧ c = pyChr m := by
  induction names with
  | nil =>
    intro opts used cs h c hc
    match opts with
    | [] => simp only [pass2] at h; cases h; simp at hc
    | _ :: _ => simp [pass2] at h
  | cons name rest ih =>
    intro opts used cs h c hc
    match opts with
    | [] => simp [pass2] at h
    | some d :: os =>
      simp only [pass2] at h
      cases hrec : pass2 used rest os with
      | error e => rw [hrec] at h; simp at h
      | ok cs' =>
        rw [hrec] at h
        simp only [Except.ok.injEq] at h
        subst h
        rcases List.mem_cons.mp hc with rfl | htl
        · exact Or.inl (List.mem_cons_self _ _)
        · rcases ih os used cs' hrec c htl with hopt | hname | halpha
          · exact Or.inl (List.mem_cons_of_mem _ hopt)
          · obtain ⟨nm, hnm, ha⟩ := hname
            exact Or.inr (Or.inl ⟨nm, List.mem_cons_of_mem _ hnm, ha⟩)
          · exact Or.inr (Or.inr halpha)
    | Option.none :: os =>
      simp only [pass2] at h
      match name with
      | [] => simp at h
      | a :: as =>
        simp only at h
        cases hfc : find_char used (a :: as) with
        | none => rw [hfc] at h; simp at h
        | some d =>
          rw [hfc] at h
          dsimp only at h
          cases hrec : pass2 (used ++ [d]) rest os with
          | error e => rw [hrec] at h; simp at h
          | ok cs' =>
            rw [hrec] at h
            simp only [Except.ok.injEq] at h
            subst h
            rcases List.mem_cons.mp hc with rfl | htl
            · rcases find_char_source used (a :: as) c hfc with hname | halpha
              · exact Or.inr (Or.inl ⟨a :: as, List.mem_cons_self _ _, hname⟩)
              · exact Or.inr (Or.inr halpha)
            · rcases ih os (used ++ [d]) cs' hrec c htl with hopt | hname | halpha
              · exact Or.inl (List.mem_cons_of_mem _ hopt)
              · obtain ⟨nm, hnm, ha⟩ := hname
                exact Or.inr (Or.inl ⟨nm, List.mem_cons_of_mem _ hnm, ha⟩)
              · exact Or.inr (Or.inr halpha)

/-- Every assigned label character is an upper-cased character of some
snake's name or comes from the alphabet scan (code point at least 97). -/
theorem set_snake_chars_source (snakes : List Snake) (chars : List Char)
    (h : set_snake_chars snakes = .ok chars) :
    ∀ c ∈ chars, (∃ s ∈ snakes, ∃ a ∈ s.name, c = pyUpper a) ∨
      ∃ m, 97 ≤ m ∧ c = pyChr m := by
  intro c hc
  unfold set_snake_chars at h
  cases hp1 : pass1 [] (snakes.map Snake.name) with
  | error e => rw [hp1] at h; simp at h
  | ok p =>
    rw [hp1] at h
    obtain ⟨opts, u⟩ := p
    simp only at h
    rcases pass2_source (snakes.map Snake.name) opts u chars h c hc with hopt | hname | halpha
    · obtain ⟨nm, hnm, ha⟩ := pass1_source (snakes.map Snake.name) [] opts u hp1 c hopt
      obtain ⟨s, hs, rfl⟩ := List.mem_map.mp hnm
      exact Or.inl ⟨s, hs, ha⟩
    · obtain ⟨nm, hnm, ha⟩ := hname
      obtain ⟨s, hs, rfl⟩ := List.mem_map.mp hnm
      exact Or.inl ⟨s, hs, ha⟩
    · exact Or.inr halpha

/-- Labels are never the newline character when no snake name contains a
newline. -/
theorem chars_ne_newline (snakes : List Snake) (chars : List Char)
    (h : set_snake_chars snakes = .ok chars)
    (hn : ∀ s ∈ snakes, '\n' ∉ s.name) :
    ∀ c ∈ chars, c ≠ '\n' := by
  intro c hc
  rcases set_snake_chars_source snakes chars h c hc with ⟨s, hs, a, ha, rfl⟩ | ⟨m, hm, rfl⟩
  · exact pyUpper_ne_newline (fun hE => hn s hs (hE ▸ ha))
  · exact pyChr_ne_newline hm

/-! ## Well-formedness of the bucket cells -/

theorem cellOk_glyph (a : Char) (b : String) (ha : a ≠ '\n')
    (hb : b.data.length = 1 ∧ '\n' ∉ b.data) :
    CellOk (String.singleton a ++ b) := by
  constructor
  · rw [String.data_append]
    simp [String.singleton, hb.1]
  · rw [String.data_append]
    intro hmem
    rcases List.mem_append.mp hmem with hm | hm
    · simp only [String.singleton] at hm
      rcases List.mem_singleton.mp hm with hE
      exact ha hE.symm
    · exact hb.2 hm

theorem cellOk_get_body_char (body : List Pos) (index : Nat) :
    CellOk (get_body_char body index) := by
  unfold get_body_char
  dsimp only
  split_ifs <;> exact ⟨by decide, by decide⟩

theorem cellOk_segment_glyph (ch : Char) (body : List Pos) (index : Nat)
    (h : ch ≠ '\n') : CellOk (segment_glyph ch body index) := by
  unfold segment_glyph
  dsimp only
  split_ifs
  · exact cellOk_glyph _ _ (pyUpper_ne_newline h) ⟨by decide, by decide⟩
  · exact cellOk_glyph _ _ (pyUpper_ne_newline h) ⟨by decide, by decide⟩
  · exact cellOk_glyph _ _ (pyLower_ne_newline h) ⟨by decide, by decide⟩
  · exact cellOk_glyph _ _ (pyLower_ne_newline h) ⟨by decide, by decide⟩
  · exact cellOk_get_body_char body index

theorem cellsOk_init (width height : Nat) : CellsOk (init_bucket width height) := by
  intro row hrow cell hcell
  rw [List.eq_of_mem_replicate hrow] at hcell
  rw [List.eq_of_mem_replicate hcell]
  exact ⟨by decide, by decide⟩

theorem cellsOk_setCell {b b' : List (List String)} (hc : CellsOk b) {p : Pos}
    {g : String} (hg : CellOk g) (hs : setCell b p g = some b') : CellsOk b' := by
  unfold setCell at hs
  cases hy : pyIdx b.length p.y with
  | none => rw [hy] at hs; exact Option.noConfusion hs
  | some r =>
    rw [hy] at hs
    dsimp only at hs
    cases hx : pyIdx (b.getD r []).length p.x with
    | none => rw [hx] at hs; exact Option.noConfusion hs
    | some cc =>
      rw [hx] at hs
      dsimp only at hs
      injection hs with hb'
      subst hb'
      have hr : r < b.length := pyIdx_some_lt hy
      have hrowmem : b.getD r [] ∈ b := by
        rw [List.getD_eq_getElem?_getD, List.getElem?_eq_getElem hr]
        exact List.getElem_mem hr
      intro row hrow cell hcell
      rcases List.mem_or_eq_of_mem_set hrow with hm | rfl
      · exact hc row hm cell hcell
      · rcases List.mem_or_eq_of_mem_set hcell with hm | rfl
        · exact hc _ hrowmem cell hm
        · exact hg

theorem cellsOk_apply_writes :
    ∀ (ws : List (Pos × String)) (b b' : List (List String)), CellsOk b →
      (∀ pg ∈ ws, CellOk pg.2) → apply_writes b ws = some b' → CellsOk b' := by
  intro ws
  induction ws with
  | nil =>
    intro b b' hc _ happ
    simp only [apply_writes] at happ
    injection happ with hb
    subst hb
    exact hc
  | cons pg rest ih =>
    intro b b' hc hok happ
    simp only [apply_writes] at happ
    cases hs : setCell b pg.1 pg.2 with
    | none => rw [hs] at happ; exact Option.noConfusion happ
    | some b1 =>
      rw [hs] at happ
      dsimp only at happ
      exact ih b1 b' (cellsOk_setCell hc (hok pg (by simp)) hs)
        (fun q hq => hok q (List.mem_cons_of_mem _ hq)) happ

theorem all_writes_cellOk (foods : List Pos) (labeled : List (Snake × Char))
    (hch : ∀ sc ∈ labeled, sc.2 ≠ '\n') :
    ∀ pg ∈ all_writes foods labeled, CellOk pg.2 := by
  intro pg hm
  unfold all_writes at hm
  rcases List.mem_append.mp hm with hf | hs
  · obtain ⟨p, _, rfl⟩ := List.mem_map.mp hf
    exact (⟨by decide, by decide⟩ : CellOk "% ")
  · obtain ⟨l, hl, hpg⟩ := List.mem_flatten.mp hs
    obtain ⟨sc, hsc, rfl⟩ := List.mem_map.mp hl
    unfold snake_writes at hpg
    obtain ⟨ip, _, rfl⟩ := List.mem_map.mp hpg
    exact cellOk_segment_glyph sc.2 sc.1.body ip.1 (hch sc hsc)

/-! ## String-concatenation counting lemmas -/

theorem strJoin_data : ∀ l : List String, (strJoin l).data = (l.map String.data).flatten := by
  intro l
  induction l with
  | nil => rfl
  | cons s rest ih =>
    simp only [strJoin, List.map_cons, List.flatten_cons, String.data_append, ih]

theorem nl_count_append (a b : String) :
    nl_count (a ++ b) = nl_count a + nl_count b := by
  simp [nl_count, String.data_append, List.count_append]

theorem nl_count_strJoin : ∀ l : List String,
    nl_count (strJoin l) = (l.map nl_count).sum := by
  intro l
  induction l with
  | nil => rfl
  | cons s rest ih =>
    simp only [strJoin, List.map_cons, List.sum_cons, nl_count_append, ih]

theorem sum_map_const {α : Type} (L : List α) (f : α → Nat) (k : Nat)
    (h : ∀ x ∈ L, f x = k) : (L.map f).sum = k * L.length := by
  induction L with
  | nil => simp
  | cons a rest ih =>
    simp only [List.map_cons, List.sum_cons, List.length_cons]
    rw [h a (by simp), ih (fun x hx => h x (List.mem_cons_of_mem _ hx))]
    ring

theorem nl_count_eq_zero {s : String} (h : '\n' ∉ s.data) : nl_count s = 0 :=
  List.count_eq_zero.mpr h

/-! ## Glyph rows and annotations of the formatted output -/

theorem row_glyphs_spec {bucket : List (List String)} {h w row : Nat}
    (hsh : Shaped bucket h w) (hcells : CellsOk bucket) (hrow : row < h) :
    (row_glyphs bucket h w row).data.length = 2 * w ∧
      nl_count (row_glyphs bucket h w row) = 0 := by
  have hcell : ∀ cell ∈ (List.range w).map
      (fun col => (bucket.getD (h - row - 1) []).getD col ""), CellOk cell := by
    intro cell hcell
    obtain ⟨col, hcolmem, rfl⟩ := List.mem_map.mp hcell
    have hcol : col < w := List.mem_range.mp hcolmem
    have hb : h - row - 1 < bucket.length := by rw [hsh.1]; omega
    have hrowv : bucket.getD (h - row - 1) [] = bucket[h - row - 1] := by
      rw [List.getD_eq_getElem?_getD, List.getElem?_eq_getElem hb]
      rfl
    rw [hrowv]
    have hrl : bucket[h - row - 1].length = w := hsh.2 _ (List.getElem_mem hb)
    have hcl : col < bucket[h - row - 1].length := by omega
    have hcv : bucket[h - row - 1].getD col "" = bucket[h - row - 1][col] := by
      rw [List.getD_eq_getElem?_getD, List.getElem?_eq_getElem hcl]
      rfl
    rw [hcv]
    exact hcells _ (List.getElem_mem hb) _ (List.getElem_mem hcl)
  constructor
  · unfold row_glyphs
    rw [strJoin_data, List.length_flatten, List.map_map]
    rw [sum_map_const ((List.range w).map
        (fun col => (bucket.getD (h - row - 1) []).getD col ""))
      (List.length ∘ String.data) 2 (fun cell hc => (hcell cell hc).1)]
    simp [Nat.mul_comm]
  · unfold row_glyphs
    rw [nl_count_strJoin]
    rw [sum_map_const _ _ 0 (fun cell hc => nl_count_eq_zero (hcell cell hc).2)]
    simp

theorem nl_count_info (snakes : List Snake) (s : Snake) (ch : Char)
    (hname : '\n' ∉ s.name) (hid : '\n' ∉ s.id) (hshout : '\n' ∉ s.shout)
    (hch : pyUpper ch ≠ '\n') :
    nl_count (snake_info_line snakes s ch) = 0 := by
  unfold snake_info_line
  repeat rw [nl_count_append]
  have h1 : nl_count (String.singleton (pyUpper ch)) = 0 := by
    apply nl_count_eq_zero
    intro hm
    simp only [String.singleton] at hm
    exact hch (List.mem_singleton.mp hm).symm
  have h2 : nl_count (String.mk (display_name snakes s)) = 0 := by
    apply nl_count_eq_zero
    unfold display_name
    split_ifs
    · exact hname
    · intro hm
      rcases List.mem_append.mp hm with hm | hm
      · exact hname hm
      · rcases List.mem_cons.mp hm with hE | hm
        · exact absurd hE (by decide)
        · exact hid (List.drop_subset _ _ hm)
  have h3 : nl_count (String.mk (int_repr s.health)) = 0 := by
    apply nl_count_eq_zero
    intro hm
    exact int_repr_ne_newline s.health '\n' hm rfl
  have h4 : nl_count (String.mk (nat_repr s.body.length)) = 0 := by
    apply nl_count_eq_zero
    intro hm
    exact nat_repr_ne_newline _ '\n' hm rfl
  have h5 : nl_count (String.mk (shout_part s)) = 0 := by
    apply nl_count_eq_zero
    unfold shout_part
    split_ifs
    · simp
    · intro hm
      rcases List.mem_cons.mp hm with hE | hm
      · exact absurd hE (by decide)
      · rcases List.mem_append.mp hm with hm | hm
        · exact hshout hm
        · rcases List.mem_singleton.mp hm with hE
          exact absurd hE (by decide)
  rw [h1, h2, h3, h4, h5]
  decide

theorem row_note_nl (turn : String) (labeled : List (Snake × Char))
    (hturn : '\n' ∉ turn.data)
    (hinfo : ∀ sc ∈ labeled, '\n' ∉ sc.1.name ∧ '\n' ∉ sc.1.id ∧
      '\n' ∉ sc.1.shout ∧ pyUpper sc.2 ≠ '\n') :
    ∀ row, nl_count (row_note turn labeled row) = 0 := by
  intro row
  unfold row_note
  split_ifs with h0 h1
  · rw [nl_count_append, nl_count_eq_zero hturn]
    decide
  · cases hget : labeled.get? (row - 2) with
    | none => rfl
    | some sc =>
      have hm : sc ∈ labeled := List.get?_mem hget
      obtain ⟨hn, hi, hs, hc⟩ := hinfo sc hm
      exact nl_count_info (labeled.map Prod.fst) sc.1 sc.2 hn hi hs hc
  · rfl

/-- Every live snake keeps the id and shout of a frame snake, and its name
is a frame snake's name or the substituted `"UNKNOWN"`. -/
theorem live_snakes_fields (frame : Frame) :
    ∀ s ∈ live_snakes frame, ∃ s0 ∈ frame.snakes,
      s.id = s0.id ∧ s.shout = s0.shout ∧
        (s.name = s0.name ∨ s.name = "UNKNOWN".data) := by
  intro s hs
  unfold live_snakes validate_snake_names at hs
  obtain ⟨s0, hs0, rfl⟩ := List.mem_map.mp hs
  have hs0' : s0 ∈ frame.snakes := List.mem_of_mem_filter hs0
  refine ⟨s0, hs0', ?_⟩
  by_cases h0 : s0.name = [] <;> simp [h0]

/-! ## Claim theorems about the output line structure -/

/-- C4, counterexample: on an empty 1×2 board with no comment markers the
output holds 4 newline-terminated lines (a leading blank line, the
share-URL header, and the two glyph rows), not `height = 2` lines. -/
theorem c4_counterexample :
    ((get_board_string "gid" "0" ⟨1, 2⟩ ⟨[], []⟩ FormatOption.none).map nl_count
      = .ok 4) ∧ (4 : Nat) ≠ 2 :=
  ⟨rfl, by decide⟩

/-- C4, amended: the rendered output contains exactly `height` glyph rows,
each `2 * width` characters long before annotations (and containing no
newline), and — when the turn string, game id, and the snake names, ids
and shouts contain no newline — the newline-terminated line count of the
whole output is `height + 2` (the glyph rows plus a leading blank line and
the share-URL header line), plus two more lines when comment markers are
used (`nl_count` of the comment start and end pieces is 1 each for the
java and python styles and 0 for "none"). -/
theorem c4_amended (game_id turn : String) (game : Game) (frame : Frame)
    (fmt : FormatOption) (chars : List Char) (bucket : List (List String))
    (hchars : set_snake_chars (live_snakes frame) = .ok chars)
    (happ : apply_writes (init_bucket game.width game.height)
      (all_writes frame.food ((live_snakes frame).zip chars)) = some bucket)
    (hgid : '\n' ∉ game_id.data) (hturn : '\n' ∉ turn.data)
    (hnames : ∀ s ∈ frame.snakes, '\n' ∉ s.name)
    (hids : ∀ s ∈ frame.snakes, '\n' ∉ s.id)
    (hshouts : ∀ s ∈ frame.snakes, '\n' ∉ s.shout) :
    ∃ out, get_board_string game_id turn game frame fmt = .ok out ∧
      nl_count out = game.height + 2
        + nl_count (format_parts fmt).1 + nl_count (format_parts fmt).2.2 ∧
      ((List.range game.height).map
        (row_line (format_parts fmt).2.1 bucket game.height game.width turn
          ((live_snakes frame).zip chars))).length = game.height ∧
      ∀ row, row < game.height →
        (row_glyphs bucket game.height game.width row).length = 2 * game.width ∧
        nl_count (row_glyphs bucket game.height game.width row) = 0 := by
  have hlive : ∀ s ∈ live_snakes frame,
      '\n' ∉ s.name ∧ '\n' ∉ s.id ∧ '\n' ∉ s.shout := by
    intro s hs
    obtain ⟨s0, hs0, hid, hshout, hname⟩ := live_snakes_fields frame s hs
    refine ⟨?_, hid ▸ hids s0 hs0, hshout ▸ hshouts s0 hs0⟩
    rcases hname with hname | hname
    · exact hname ▸ hnames s0 hs0
    · rw [hname]; decide
  have hchne : ∀ c ∈ chars, c ≠ '\n' :=
    chars_ne_newline _ _ hchars (fun s hs => (hlive s hs).1)
  have hinfo : ∀ sc ∈ (live_snakes frame).zip chars, '\n' ∉ sc.1.name ∧
      '\n' ∉ sc.1.id ∧ '\n' ∉ sc.1.shout ∧ pyUpper sc.2 ≠ '\n' := by
    rintro ⟨s, ch⟩ hm
    obtain ⟨hs, hch⟩ := List.of_mem_zip hm
    obtain ⟨h1, h2, h3⟩ := hlive s hs
    exact ⟨h1, h2, h3, pyUpper_ne_newline (hchne ch hch)⟩
  have hsh : Shaped bucket game.height game.width :=
    apply_writes_shaped _ _ _ (init_bucket_shaped _ _) happ
  have hcells : CellsOk bucket :=
    cellsOk_apply_writes _ _ _ (cellsOk_init _ _)
      (all_writes_cellOk _ _ (fun sc hsc => hchne _ (List.of_mem_zip hsc).2)) happ
  have hedge : nl_count (format_parts fmt).2.1 = 0 := by
    cases fmt <;> decide
  have hurl : nl_count (board_url game_id turn) = 0 := by
    unfold board_url
    repeat rw [nl_count_append]
    rw [nl_count_eq_zero hgid, nl_count_eq_zero hturn]
    decide
  have hrow1 : ∀ row ∈ List.range game.height,
      nl_count (row_line (format_parts fmt).2.1 bucket game.height game.width turn
        ((live_snakes frame).zip chars) row) = 1 := by
    intro row hrowm
    have hrow : row < game.height := List.mem_range.mp hrowm
    unfold row_line
    repeat rw [nl_count_append]
    rw [hedge, (row_glyphs_spec hsh hcells hrow).2,
      row_note_nl turn _ hturn hinfo row]
    decide
  have hrows : nl_count (strJoin ((List.range game.height).map
      (row_line (format_parts fmt).2.1 bucket game.height game.width turn
        ((live_snakes frame).zip chars)))) = game.height := by
    rw [nl_count_strJoin, List.map_map]
    rw [sum_map_const (List.range game.height)
      (nl_count ∘ row_line (format_parts fmt).2.1 bucket game.height game.width turn
        ((live_snakes frame).zip chars)) 1
      (fun row hr => hrow1 row hr)]
    simp
  refine ⟨(format_parts fmt).1 ++ "\n"
      ++ (format_parts fmt).2.1 ++ board_url game_id turn ++ "\n"
      ++ strJoin ((List.range game.height).map
        (row_line (format_parts fmt).2.1 bucket game.height game.width turn
          ((live_snakes frame).zip chars)))
      ++ (format_parts fmt).2.2, ?_, ?_, by simp, ?_⟩
  · simp only [get_board_string]
    rw [hchars]
    dsimp only
    rw [happ]
  · repeat rw [nl_count_append]
    rw [hedge, hurl, hrows]
    have h1 : nl_count "\n" = 1 := by decide
    rw [h1]
    omega
  · intro row hrow
    exact ⟨(row_glyphs_spec hsh hcells hrow).1, (row_glyphs_spec hsh hcells hrow).2⟩

/-- Witness for `c4_amended` on an empty 1×2 board without comment
markers. -/
theorem c4_witness :
    ∃ out, get_board_string "gid" "0" ⟨1, 2⟩ ⟨[], []⟩ FormatOption.none = .ok out ∧
      nl_count out = 2 + 2
        + nl_count (format_parts FormatOption.none).1
        + nl_count (format_parts FormatOption.none).2.2 ∧
      ((List.range 2).map
        (row_line (format_parts FormatOption.none).2.1 [[". "], [". "]] 2 1 "0"
          ((live_snakes ⟨[], []⟩).zip []))).length = 2 ∧
      ∀ row, row < 2 →
        (row_glyphs [[". "], [". "]] 2 1 row).length = 2 * 1 ∧
        nl_count (row_glyphs [[". "], [". "]] 2 1 row) = 0 :=
  c4_amended "gid" "0" ⟨1, 2⟩ ⟨[], []⟩ FormatOption.none [] [[". "], [". "]]
    rfl rfl (by decide) (by decide) (by simp) (by simp) (by simp)

end Battlescrape
